import Mathlib

/-!
Verification of `src/SNAPLib/ReadSupplierQueue.h` (the SNAP read-supplier queue).

The header contains the complete inline implementations of the intrusive
circular doubly-linked list operations (`ReadQueueElement` and `ReaderGroup`
constructors, `addToTail` / `addToQueue`, `removeFromQueue`); those are
embedded below as transformers over an explicit pointer heap, translated
statement by statement from the C++.

The remaining operations (`ReaderThread`, `getElement`, `getElements`,
`getNextRead`, `getNextReadPair`, `waitUntilFinished`, ...) are only declared
in the header; their implementation file is not part of the sources, so they
are modelled from the specification (each such definition carries a
`Modelled from the spec:` doc comment).
-/

namespace Snap

/-! ## Pointer-heap embedding of the intrusive lists

Pointers are modelled as natural-number addresses; the C++ `NULL` is
address `0`.  A heap maps every address to the two link fields of the node
stored there (`Read reads[nReads]` payload and `totalReads` are data fields
never touched by the link operations, so the heap tracks links only).
-/

/-- The C++ null pointer. -/
def NULLP : Nat := 0

/-- The two link fields of a `ReadQueueElement` (or of a `ReaderGroup`). -/
structure Node where
  next : Nat
  prev : Nat
deriving DecidableEq

/-- A heap of intrusive-list nodes, addressed by `Nat`. -/
def Heap : Type := Nat → Node

/-- Field assignment `a->next = v`. -/
def writeNext (h : Heap) (a v : Nat) : Heap :=
  fun x => if x = a then { h a with next := v } else h x

/-- Field assignment `a->prev = v`. -/
def writePrev (h : Heap) (a v : Nat) : Heap :=
  fun x => if x = a then { h a with prev := v } else h x

/-- `ReadQueueElement::nReads` (line 34 of the header): buffer capacity. -/
def ReadQueueElement.nReads : Nat := 10000

/-- `ReadQueueElement() : next(NULL), prev(NULL) {}` — the constructor body,
as the effect on the heap at the element's address. -/
def ReadQueueElement.construct (h : Heap) (self : Nat) : Heap :=
  writePrev (writeNext h self NULLP) self NULLP

/-- `ReadQueueElement::addToTail(ReadQueueElement *queueHead)`, transcribed
statement by statement:
`prev = queueHead; next = queueHead->prev; prev->next = this; next->prev = this;` -/
def ReadQueueElement.addToTail (h : Heap) (self queueHead : Nat) : Heap :=
  let h1 := writePrev h self queueHead
  let h2 := writeNext h1 self ((h1 queueHead).prev)
  let h3 := writeNext h2 ((h2 self).prev) self
  let h4 := writePrev h3 ((h3 self).next) self
  h4

/-- `ReadQueueElement::removeFromQueue()`, transcribed statement by statement:
`prev->next = next; next->prev = prev; prev = next = NULL;` -/
def ReadQueueElement.removeFromQueue (h : Heap) (self : Nat) : Heap :=
  let h1 := writeNext h ((h self).prev) ((h self).next)
  let h2 := writePrev h1 ((h1 self).next) ((h1 self).prev)
  let h3 := writeNext h2 self NULLP
  let h4 := writePrev h3 self NULLP
  h4

/-- The non-link data members set by `ReaderGroup()`:
`singleReader[0] = singleReader[1] = NULL;` and `pairedReader(NULL)`. -/
structure ReaderGroupReaders where
  singleReader0 : Nat
  singleReader1 : Nat
  pairedReader : Nat
deriving DecidableEq

/-- `Modelled from the header constructor:` the reader pointers after
`ReaderGroup()` runs. -/
def ReaderGroup.constructReaders : ReaderGroupReaders :=
  ⟨NULLP, NULLP, NULLP⟩

/-- The link effects of `ReaderGroup()`: the group's own `next`/`prev` are
`NULL`, and the two `readyQueue` sentinel elements are self-linked
(`readyQueue->next = readyQueue->prev = readyQueue;` and the same for
`readyQueue[1]`).  `self`, `q0`, `q1` are the addresses of the group node and
of its two embedded sentinels. -/
def ReaderGroup.construct (h : Heap) (self q0 q1 : Nat) : Heap :=
  let h1 := writePrev (writeNext h self NULLP) self NULLP
  let h2 := writePrev (writeNext h1 q0 q0) q0 q0
  let h3 := writePrev (writeNext h2 q1 q1) q1 q1
  h3

/-- `ReaderGroup::addToQueue(ReaderGroup *queue)`, transcribed statement by
statement: `next = queue; prev = queue->prev; next->prev = this; prev->next = this;` -/
def ReaderGroup.addToQueue (h : Heap) (self queue : Nat) : Heap :=
  let h1 := writeNext h self queue
  let h2 := writePrev h1 self ((h1 queue).prev)
  let h3 := writePrev h2 ((h2 self).next) self
  let h4 := writeNext h3 ((h3 self).prev) self
  h4

/-- `ReaderGroup::removeFromQueue()`, transcribed statement by statement:
`next->prev = prev; prev->next = next; next = prev = NULL;` -/
def ReaderGroup.removeFromQueue (h : Heap) (self : Nat) : Heap :=
  let h1 := writePrev h ((h self).next) ((h self).prev)
  let h2 := writeNext h1 ((h1 self).prev) ((h1 self).next)
  let h3 := writePrev h2 self NULLP
  let h4 := writeNext h3 self NULLP
  h4

/-- The heap in which nothing has been constructed yet. -/
def emptyHeap : Heap := fun _ => ⟨NULLP, NULLP⟩

/-- Make the node at `a` a self-linked (empty) queue sentinel, as the queue
heads are initialized (`readyQueue->next = readyQueue->prev = readyQueue;`). -/
def selfLinkedAt (h : Heap) (a : Nat) : Heap :=
  writePrev (writeNext h a a) a a

/-- `chainOk h a l b` says the `next` pointers run `a → l₀ → l₁ → ... → b`
and each step's `prev` pointer points back. -/
def chainOk (h : Heap) : Nat → List Nat → Nat → Bool
  | a, [], b => ((h a).next == b) && ((h b).prev == a)
  | a, x :: xs, b => ((h a).next == x) && ((h x).prev == a) && chainOk h x xs b

/-- `cycleOk h c`: the nonempty list `c` is a circular doubly-linked list in
heap `h` (consecutive nodes linked by `next`, inversely by `prev`,
wrapping around). -/
def cycleOk (h : Heap) : List Nat → Bool
  | [] => false
  | a :: l => chainOk h a l a

/-- Insert each element of `es`, in order, with `addToTail` onto the sentinel
`queueHead`. -/
def addAll (h : Heap) (queueHead : Nat) (es : List Nat) : Heap :=
  es.foldl (fun h e => ReadQueueElement.addToTail h e queueHead) h

/-- Drain the queue rooted at the sentinel `queueHead` the way the consumers
do: repeatedly take the element at `queueHead->prev` and call its
`removeFromQueue`, until the sentinel is self-linked (empty queue).
`fuel` bounds the number of iterations. -/
def drainOldest (h : Heap) (queueHead : Nat) : Nat → List Nat
  | 0 => []
  | fuel + 1 =>
    let e := (h queueHead).prev
    if e = queueHead then []
    else e :: drainOldest (ReadQueueElement.removeFromQueue h e) queueHead fuel

/-- Walk the `next` pointers from the sentinel `queueHead`, collecting the
elements visited until the walk returns to the sentinel. -/
def visitNext (h : Heap) (queueHead : Nat) : Nat → Nat → List Nat
  | _, 0 => []
  | cur, fuel + 1 =>
    let n := (h cur).next
    if n = queueHead then [] else n :: visitNext h queueHead n fuel

/-! ## Lemmas about well-formed circular lists -/

theorem chainOk_append (h : Heap) (x b : Nat) (l1 : List Nat) :
    ∀ (a : Nat) (l2 : List Nat),
      chainOk h a (l1 ++ x :: l2) b = true ↔
        (chainOk h a l1 x = true ∧ chainOk h x l2 b = true) := by
  induction l1 with
  | nil =>
    intro a l2
    simp only [List.nil_append, chainOk, Bool.and_eq_true, beq_iff_eq, and_assoc]
  | cons y ys ih =>
    intro a l2
    simp only [List.cons_append, chainOk, Bool.and_eq_true, beq_iff_eq, List.append_eq, ih,
      and_assoc]

theorem chainOk_unique (h : Heap) (b : Nat) :
    ∀ (l1 l2 : List Nat) (a : Nat),
      chainOk h a l1 b = true → chainOk h a l2 b = true →
      b ∉ l1 → b ∉ l2 → l1 = l2 := by
  intro l1
  induction l1 with
  | nil =>
    intro l2 a h1 h2 _ hb2
    cases l2 with
    | nil => rfl
    | cons x xs =>
      exfalso
      simp only [chainOk, Bool.and_eq_true, beq_iff_eq] at h1 h2
      apply hb2
      have hx : x = b := by rw [← h2.1.1, h1.1]
      simp [hx]
  | cons y ys ih =>
    intro l2 a h1 h2 hb1 hb2
    cases l2 with
    | nil =>
      exfalso
      simp only [chainOk, Bool.and_eq_true, beq_iff_eq] at h1 h2
      apply hb1
      have hy : y = b := by rw [← h1.1.1, h2.1]
      simp [hy]
    | cons x xs =>
      simp only [chainOk, Bool.and_eq_true, beq_iff_eq] at h1 h2
      have hxy : x = y := by rw [← h2.1.1, h1.1.1]
      subst hxy
      simp only [List.mem_cons, not_or] at hb1 hb2
      rw [ih xs x h1.2 h2.2 hb1.2 hb2.2]

theorem chainOk_prev_mem (h : Heap) (b : Nat) :
    ∀ (l : List Nat) (a : Nat), chainOk h a l b = true → (h b).prev ∈ a :: l := by
  intro l
  induction l with
  | nil =>
    intro a hc
    simp only [chainOk, Bool.and_eq_true, beq_iff_eq] at hc
    simp [hc.2]
  | cons x xs ih =>
    intro a hc
    simp only [chainOk, Bool.and_eq_true, beq_iff_eq] at hc
    have hmem := ih x hc.2
    simp only [List.mem_cons] at hmem ⊢
    tauto

theorem cycle_rotate (h : Heap) (a e : Nat) (l : List Nat)
    (hc : cycleOk h (a :: l) = true) (he : e ∈ a :: l) :
    ∃ t, cycleOk h (e :: t) = true ∧ (a :: l).Perm (e :: t) := by
  have hc' : chainOk h a l a = true := hc
  rcases List.mem_cons.mp he with rfl | hmem
  · exact ⟨l, hc, List.Perm.refl _⟩
  · obtain ⟨l1, l2, rfl⟩ := List.append_of_mem hmem
    have hsplit := (chainOk_append h e a l1 a l2).mp hc'
    refine ⟨l2 ++ a :: l1, ?_, ?_⟩
    · show chainOk h e (l2 ++ a :: l1) e = true
      exact (chainOk_append h a e l2 e l1).mpr ⟨hsplit.2, hsplit.1⟩
    · have := @List.perm_append_comm _ (a :: l1) (e :: l2)
      simpa using this

theorem cycle_unique_members (h : Heap) (c1 c2 : List Nat) (e : Nat)
    (h1 : cycleOk h c1 = true) (h2 : cycleOk h c2 = true)
    (hn1 : c1.Nodup) (hn2 : c2.Nodup) (he1 : e ∈ c1) (he2 : e ∈ c2) :
    ∀ x, x ∈ c1 ↔ x ∈ c2 := by
  cases c1 with
  | nil => simp at he1
  | cons a1 l1 =>
    cases c2 with
    | nil => simp at he2
    | cons a2 l2 =>
      obtain ⟨t1, hct1, hp1⟩ := cycle_rotate h a1 e l1 h1 he1
      obtain ⟨t2, hct2, hp2⟩ := cycle_rotate h a2 e l2 h2 he2
      have hn1' : (e :: t1).Nodup := hp1.nodup_iff.mp hn1
      have hn2' : (e :: t2).Nodup := hp2.nodup_iff.mp hn2
      have he1' : e ∉ t1 := (List.nodup_cons.mp hn1').1
      have he2' : e ∉ t2 := (List.nodup_cons.mp hn2').1
      have ht : t1 = t2 := chainOk_unique h e t1 t2 e hct1 hct2 he1' he2'
      intro x
      rw [hp1.mem_iff, hp2.mem_iff, ht]

theorem cycle_links_nonnull (h : Heap) (c : List Nat) (e : Nat)
    (hc : cycleOk h c = true) (h0 : NULLP ∉ c) (he : e ∈ c) :
    (h e).next ≠ NULLP ∧ (h e).prev ≠ NULLP := by
  cases c with
  | nil => simp at he
  | cons a l =>
    obtain ⟨t, hct, hp⟩ := cycle_rotate h a e l hc he
    have hct' : chainOk h e t e = true := hct
    have hnext : (h e).next ∈ e :: t := by
      cases t with
      | nil =>
        simp only [chainOk, Bool.and_eq_true, beq_iff_eq] at hct'
        simp [hct'.1]
      | cons x xs =>
        simp only [chainOk, Bool.and_eq_true, beq_iff_eq] at hct'
        simp [hct'.1.1]
    have hprev : (h e).prev ∈ e :: t := chainOk_prev_mem h e t e hct'
    refine ⟨fun hn => h0 ?_, fun hn => h0 ?_⟩
    · exact hp.mem_iff.mpr (hn ▸ hnext)
    · exact hp.mem_iff.mpr (hn ▸ hprev)

/-- C9: the claim states that `addToTail` / `removeFromQueue` implement a FIFO
queue — after any sequence of `addToTail` calls onto an initially self-linked
sentinel, dequeuing at `queueHead->prev` yields the elements in exact
insertion order and the `next` chain from the sentinel lists them
newest-first.  The code refutes this: inserting the three elements 1, 2, 3
(at addresses 1, 2, 3, sentinel at 4) and draining yields `[1, 3]` — element
2 is orphaned (line 42 reads `queueHead->prev` where splicing after the
sentinel requires `queueHead->next`; contrast the correct sibling
`ReaderGroup::addToQueue`).  The `next` walk likewise yields `[3, 1]`
instead of `[3, 2, 1]`.  Two-element queues still behave as claimed, which
is why small configurations mask the defect. -/
theorem C9_addToTail_breaks_fifo :
    drainOldest (addAll (selfLinkedAt emptyHeap 4) 4 [1, 2, 3]) 4 5 = [1, 3] ∧
    drainOldest (addAll (selfLinkedAt emptyHeap 4) 4 [1, 2, 3]) 4 5 ≠ [1, 2, 3] ∧
    visitNext (addAll (selfLinkedAt emptyHeap 4) 4 [1, 2, 3]) 4 4 5 = [3, 1] ∧
    visitNext (addAll (selfLinkedAt emptyHeap 4) 4 [1, 2, 3]) 4 4 5 ≠ [3, 2, 1] ∧
    drainOldest (addAll (selfLinkedAt emptyHeap 4) 4 [1, 2]) 4 5 = [1, 2] := by
  decide

/-- C10: link discipline of the intrusive nodes.  (a) `ReadQueueElement()`
initializes `next == prev == NULL`; (b) `ReaderGroup()` initializes its own
links to `NULL`, its reader pointers to `NULL`, and self-links both
`readyQueue` sentinels (empty circular queues); (c) both `removeFromQueue`
implementations restore `next == prev == NULL` on the removed node;
(d) a node belongs to at most one circular list at any time (two well-formed
cycles sharing a node have the same members); (e) a node linked into a
well-formed cycle of non-null addresses never shows `NULL` links, so
`next == prev == NULL` identifies an unlinked node. -/
theorem C10_construction_and_unlink_discipline :
    (∀ (h : Heap) (self : Nat),
      (ReadQueueElement.construct h self) self = ⟨NULLP, NULLP⟩) ∧
    (∀ (h : Heap) (self q0 q1 : Nat), self ≠ q0 → self ≠ q1 → q0 ≠ q1 →
      (ReaderGroup.construct h self q0 q1) self = ⟨NULLP, NULLP⟩ ∧
      (ReaderGroup.construct h self q0 q1) q0 = ⟨q0, q0⟩ ∧
      (ReaderGroup.construct h self q0 q1) q1 = ⟨q1, q1⟩ ∧
      cycleOk (ReaderGroup.construct h self q0 q1) [q0] = true ∧
      cycleOk (ReaderGroup.construct h self q0 q1) [q1] = true) ∧
    (ReaderGroup.constructReaders = ⟨NULLP, NULLP, NULLP⟩) ∧
    (∀ (h : Heap) (self : Nat),
      (ReadQueueElement.removeFromQueue h self) self = ⟨NULLP, NULLP⟩) ∧
    (∀ (h : Heap) (self : Nat),
      (ReaderGroup.removeFromQueue h self) self = ⟨NULLP, NULLP⟩) ∧
    (∀ (h : Heap) (c1 c2 : List Nat) (e : Nat),
      cycleOk h c1 = true → cycleOk h c2 = true → c1.Nodup → c2.Nodup →
      e ∈ c1 → e ∈ c2 → ∀ x, x ∈ c1 ↔ x ∈ c2) ∧
    (∀ (h : Heap) (c : List Nat) (e : Nat),
      cycleOk h c = true → NULLP ∉ c → e ∈ c →
      (h e).next ≠ NULLP ∧ (h e).prev ≠ NULLP) := by
  refine ⟨?_, ?_, rfl, ?_, ?_, cycle_unique_members, cycle_links_nonnull⟩
  · intro h self
    simp [ReadQueueElement.construct, writeNext, writePrev]
  · intro h self q0 q1 h0 h1 h01
    refine ⟨?_, ?_, ?_, ?_, ?_⟩ <;>
      simp [ReaderGroup.construct, writeNext, writePrev, cycleOk, chainOk,
        h0, h1, h01, Ne.symm h0, Ne.symm h1, Ne.symm h01]
  · intro h self
    simp [ReadQueueElement.removeFromQueue, writeNext, writePrev]
  · intro h self
    simp [ReaderGroup.removeFromQueue, writeNext, writePrev]

/-- Witness for C10 at concrete inputs: a fresh element at address 7, a
group at addresses 1/2/3, removal of a self-linked node at 5, and the cycle
facts on the concrete two-element queue built by `addAll`. -/
theorem C10_construction_and_unlink_discipline_witness :
    ((ReadQueueElement.construct emptyHeap 7) 7 = ⟨NULLP, NULLP⟩) ∧
    ((ReaderGroup.construct emptyHeap 1 2 3) 2 = ⟨2, 2⟩) ∧
    ((ReadQueueElement.removeFromQueue (selfLinkedAt emptyHeap 5) 5) 5 =
      ⟨NULLP, NULLP⟩) ∧
    ((ReaderGroup.removeFromQueue (selfLinkedAt emptyHeap 5) 5) 5 =
      ⟨NULLP, NULLP⟩) ∧
    (∀ x, x ∈ [4, 2, 1] ↔ x ∈ [2, 1, 4]) ∧
    ((addAll (selfLinkedAt emptyHeap 4) 4 [1, 2]) 2).next ≠ NULLP := by
  refine ⟨C10_construction_and_unlink_discipline.1 emptyHeap 7,
    (C10_construction_and_unlink_discipline.2.1 emptyHeap 1 2 3
      (by decide) (by decide) (by decide)).2.1,
    C10_construction_and_unlink_discipline.2.2.2.1 (selfLinkedAt emptyHeap 5) 5,
    C10_construction_and_unlink_discipline.2.2.2.2.1 (selfLinkedAt emptyHeap 5) 5,
    C10_construction_and_unlink_discipline.2.2.2.2.2.1
      (addAll (selfLinkedAt emptyHeap 4) 4 [1, 2]) [4, 2, 1] [2, 1, 4] 1
      (by decide) (by decide) (by decide) (by decide) (by decide) (by decide),
    (C10_construction_and_unlink_discipline.2.2.2.2.2.2
      (addAll (selfLinkedAt emptyHeap 4) 4 [1, 2]) [4, 2, 1] 2
      (by decide) (by decide) (by decide)).1⟩

/-! ## Spec-modelled producer loop

`ReadSupplierQueue.cpp` is not among the sources (the header only declares
`ReaderThread`, `getElement`, `getElements`, `waitUntilFinished` and the two
supplier classes' methods), so the behaviour of those operations is modelled
from the specification below.  Buffer capacity is kept as a parameter `c + 1`
(the spec fixes it to `ReadQueueElement.nReads = 10000`; `c + 1` keeps it
positive, and every theorem holds for the concrete capacity as well). -/

/-- Concatenation of a list of buffers. -/
def flat {R : Type} : List (List R) → List R
  | [] => []
  | x :: xs => x ++ flat xs

/-- `Modelled from the spec:` the producer-thread fill loop (§4.2, missing
from the sources): repeatedly read from the source into the current buffer
until the buffer holds `c + 1` records or the source is exhausted; publish
each non-empty buffer in production order; a buffer with `used == 0` is never
published.  `chunkFuel c fuel l` is the resulting list of published buffers
for a source emitting `l`, with `fuel ≥ l.length` steps available. -/
def chunkFuel {R : Type} (c : Nat) : Nat → List R → List (List R)
  | _, [] => []
  | 0, _ :: _ => []
  | fuel + 1, r :: rest => (r :: rest.take c) :: chunkFuel c fuel (rest.drop c)

/-- The buffers a producer publishes for a source emitting `l`
(capacity `c + 1` records per buffer). -/
def chunk {R : Type} (c : Nat) (l : List R) : List (List R) :=
  chunkFuel c l.length l

theorem chunkFuel_congr {R : Type} (c : Nat) :
    ∀ (f1 f2 : Nat) (l : List R), l.length ≤ f1 → l.length ≤ f2 →
      chunkFuel c f1 l = chunkFuel c f2 l := by
  intro f1
  induction f1 with
  | zero =>
    intro f2 l h1 _
    cases l with
    | nil => cases f2 <;> rfl
    | cons r rest => simp at h1
  | succ f ih =>
    intro f2 l h1 h2
    cases l with
    | nil => cases f2 <;> rfl
    | cons r rest =>
      cases f2 with
      | zero => simp at h2
      | succ f2' =>
        simp only [chunkFuel]
        rw [ih f2' (rest.drop c) ?_ ?_]
        · calc (rest.drop c).length ≤ rest.length := by
                simp [List.length_drop]
            _ ≤ f := by simpa using h1
        · calc (rest.drop c).length ≤ rest.length := by
                simp [List.length_drop]
            _ ≤ f2' := by simpa using h2

theorem chunkFuel_eq_chunk {R : Type} (c fuel : Nat) (l : List R)
    (h : l.length ≤ fuel) : chunkFuel c fuel l = chunk c l :=
  chunkFuel_congr c fuel l.length l h le_rfl

/-- Chunking loses and duplicates nothing: the published buffers concatenate
back to the source's emission sequence. -/
theorem flat_chunk {R : Type} (c : Nat) : ∀ (l : List R), flat (chunk c l) = l := by
  have key : ∀ (fuel : Nat) (l : List R), l.length ≤ fuel →
      flat (chunkFuel c fuel l) = l := by
    intro fuel
    induction fuel with
    | zero =>
      intro l h
      cases l with
      | nil => rfl
      | cons r rest => simp at h
    | succ f ih =>
      intro l h
      cases l with
      | nil => rfl
      | cons r rest =>
        simp only [chunkFuel, flat, List.cons_append]
        rw [ih (rest.drop c) ?_, List.take_append_drop]
        calc (rest.drop c).length ≤ rest.length := by
              simp [List.length_drop]
          _ ≤ f := by simpa using h
  intro l
  exact key l.length l le_rfl

/-- Every published buffer is non-empty (`used > 0`); a zero-record source
publishes no buffer at all. -/
theorem chunk_buffers_nonempty {R : Type} (c : Nat) :
    (∀ (l : List R) (b : List R), b ∈ chunk c l → b ≠ []) ∧
    chunk c ([] : List R) = [] := by
  constructor
  · have key : ∀ (fuel : Nat) (l : List R) (b : List R),
        b ∈ chunkFuel c fuel l → b ≠ [] := by
      intro fuel
      induction fuel with
      | zero => intro l b hb; cases l <;> simp [chunkFuel] at hb
      | succ f ih =>
        intro l b hb
        cases l with
        | nil => simp [chunkFuel] at hb
        | cons r rest =>
          simp only [chunkFuel, List.mem_cons] at hb
          rcases hb with rfl | hb
          · simp
          · exact ih (rest.drop c) b hb
    exact fun l => key l.length l
  · rfl

theorem get?_zip {R S : Type} :
    ∀ (A : List R) (B : List S) (i : Nat) (a : R) (b : S),
      A.get? i = some a → B.get? i = some b → (A.zip B).get? i = some (a, b) := by
  intro A
  induction A with
  | nil => intro B i a b ha _; simp at ha
  | cons x xs ih =>
    intro B i a b ha hb
    cases B with
    | nil => simp at hb
    | cons y ys =>
      cases i with
      | zero =>
        simp only [List.get?] at ha hb
        cases ha; cases hb; rfl
      | succ j =>
        simp only [List.get?] at ha hb ⊢
        exact ih ys j a b ha hb

theorem take_zip {R S : Type} :
    ∀ (n : Nat) (A : List R) (B : List S),
      (A.zip B).take n = (A.take n).zip (B.take n) := by
  intro n
  induction n with
  | zero => intro A B; rfl
  | succ m ih =>
    intro A B
    cases A with
    | nil => rfl
    | cons a as =>
      cases B with
      | nil => rfl
      | cons b bs =>
        simp only [List.zip_cons_cons, List.take_succ_cons]
        rw [ih]

theorem drop_zip {R S : Type} :
    ∀ (n : Nat) (A : List R) (B : List S),
      (A.zip B).drop n = (A.drop n).zip (B.drop n) := by
  intro n
  induction n with
  | zero => intro A B; rfl
  | succ m ih =>
    intro A B
    cases A with
    | nil => rfl
    | cons a as =>
      cases B with
      | nil => simp
      | cons b bs =>
        simp only [List.zip_cons_cons, List.drop_succ_cons]
        rw [ih]

/-- `Modelled from the spec:` in two-independent-sources mode the two
producers publish their buffers to ready-queue slots 0 and 1 in production
order, and `ReadSupplierQueue::getElements` (missing from the sources) hands
out the two heads together, so the k-th matched take returns the k-th buffer
of each side. -/
def matchedBuffers {R S : Type} (c : Nat) (A : List R) (B : List S) :
    List (List R × List S) :=
  (chunk c A).zip (chunk c B)

/-- `Modelled from the spec:` the two-independent-sources paired supplier
(`PairedReadSupplierFromQueue::getNextReadPair`, missing from the sources)
holds the two current buffers and one shared cursor, returns the record at
the cursor from each buffer, and takes the next matched buffer pair once the
cursor reaches `used`; over a full drain it emits, per buffer pair, the
pointwise pairs of the two buffers, in take order. -/
def drainMatched {R S : Type} : List (List R × List S) → List (R × S)
  | [] => []
  | (ba, bb) :: rest => ba.zip bb ++ drainMatched rest

theorem drainMatched_chunk {R S : Type} (c : Nat) :
    ∀ (n : Nat) (A : List R) (B : List S), A.length = n → B.length = n →
      drainMatched (matchedBuffers c A B) = A.zip B := by
  intro n
  induction n using Nat.strong_induction_on with
  | _ n ih =>
    intro A B hA hB
    cases A with
    | nil =>
      cases B with
      | nil => rfl
      | cons b bs => rw [← hA] at hB; simp at hB
    | cons a as =>
      cases B with
      | nil => rw [← hB] at hA; simp at hA
      | cons b bs =>
        cases n with
        | zero => simp at hA
        | succ m =>
          have hA' : as.length = m := by simpa using hA
          have hB' : bs.length = m := by simpa using hB
          have hdrop : (as.drop c).length = (bs.drop c).length := by
            simp [List.length_drop, hA', hB']
          have hlt : (as.drop c).length < m + 1 := by
            simp [List.length_drop, hA']; omega
          have hchA : chunk c (a :: as) =
              (a :: as.take c) :: chunk c (as.drop c) := by
            show chunkFuel c (as.length + 1) (a :: as) = _
            simp only [chunkFuel]
            rw [chunkFuel_eq_chunk]
            simp [List.length_drop]
          have hchB : chunk c (b :: bs) =
              (b :: bs.take c) :: chunk c (bs.drop c) := by
            show chunkFuel c (bs.length + 1) (b :: bs) = _
            simp only [chunkFuel]
            rw [chunkFuel_eq_chunk]
            simp [List.length_drop]
          have hrec := ih (as.drop c).length hlt (as.drop c) (bs.drop c) rfl
            hdrop.symm
          simp only [matchedBuffers] at hrec ⊢
          rw [hchA, hchB, List.zip_cons_cons]
          simp only [drainMatched]
          rw [hrec, List.zip_cons_cons, List.cons_append, ← take_zip, ← drop_zip,
            List.take_append_drop, List.zip_cons_cons]

/-- C2: with two independent equal-length sources, the paired supplier's
i-th returned pair is exactly (A_i, B_i): the full drain equals `A.zip B`,
and index-wise the i-th pair pairs the i-th record of each side — no
cross-pairing.  (The model fixes a single paired-supplier handle, as the
claim's "the paired supplier" does; buffer pairs are taken in publish order.) -/
theorem C2_paired_supplier_lockstep {R S : Type} (c : Nat) (A : List R)
    (B : List S) (hlen : A.length = B.length) :
    drainMatched (matchedBuffers c A B) = A.zip B ∧
    ∀ (i : Nat) (a : R) (b : S), A.get? i = some a → B.get? i = some b →
      (drainMatched (matchedBuffers c A B)).get? i = some (a, b) := by
  have hmain := drainMatched_chunk c B.length A B hlen rfl
  refine ⟨hmain, fun i a b ha hb => ?_⟩
  rw [hmain]
  exact get?_zip A B i a b ha hb

/-! ## Spec-modelled single-record consumption (C1)

`Modelled from the spec:` the missing `ReadSupplierQueue.cpp` implements
`getElement` (take the head group's slot-0 head buffer, §4.3) and
`ReadSupplierFromQueue::getNextRead` (return the record at the cursor of the
current buffer and advance; when the cursor reaches `used`, release the
buffer and take the next one, §4.4).  The model below represents each
group's published-but-untaken buffers as a queue in publish order (producers
publish in production order; pre-publishing the whole chunk list only
enlarges the set of schedules, so safety over all schedules covers the real
incremental interleavings), and lets any supplier take the head buffer of
any non-empty group — a superset of the dispatcher-FIFO group choice, which
only restricts which group is drawn from, never the per-group buffer order. -/

/-- A scheduler step: supplier `cns` takes the next buffer of group `g`, or
supplier `cns` returns one record from its current buffer. -/
inductive CStep where
  | take (cns g : Nat)
  | emit (cns : Nat)
deriving DecidableEq

/-- State of the fan-out system: per-group queue of pending published
buffers (publish order), per-supplier current buffer (source index and
records not yet returned), and the emission log, newest first. -/
structure CState (R : Type) where
  pending : List (List (List R))
  holding : List (Option (Nat × List R))
  out : List (Nat × Nat × R)
deriving DecidableEq

/-- The supplier needs a new buffer: it holds none, or its cursor reached
`used` on the current one. -/
def heldDone {R : Type} : Option (Nat × List R) → Bool
  | none => true
  | some (_, rem) => rem.isEmpty

/-- Total list lookup (the `i`-th element, if present). -/
def nth {α : Type} : List α → Nat → Option α
  | [], _ => none
  | a :: _, 0 => some a
  | _ :: as, n + 1 => nth as n

/-- `Modelled from the spec:` one atomic scheduler step (§4.3–§4.4). -/
def cDoStep {R : Type} (st : CState R) : CStep → CState R
  | .take cns g =>
    match nth st.holding cns, nth st.pending g with
    | some h, some (buf :: bufs) =>
      if heldDone h then
        { st with holding := st.holding.set cns (some (g, buf)),
                  pending := st.pending.set g bufs }
      else st
    | _, _ => st
  | .emit cns =>
    match nth st.holding cns with
    | some (some (i, r :: rest)) =>
      { st with holding := st.holding.set cns (some (i, rest)),
                out := (cns, i, r) :: st.out }
    | _ => st

/-- Run a schedule. -/
def cRun {R : Type} (st : CState R) (steps : List CStep) : CState R :=
  steps.foldl cDoStep st

/-- Initial state: every source's buffers chunked and published in
production order, `k` suppliers, nothing emitted. -/
def cInit {R : Type} (c : Nat) (srcs : List (List R)) (k : Nat) : CState R :=
  ⟨srcs.map (chunk c), List.replicate k none, []⟩

/-- Records of source `i` in an emission log (oldest first). -/
def logFor {R : Type} (i : Nat) (log : List (Nat × Nat × R)) : List R :=
  (log.filter (fun e => e.2.1 == i)).map (fun e => e.2.2)

/-- Records supplier `cns` drew from source `i` in a log (oldest first). -/
def logForSup {R : Type} (cns i : Nat) (log : List (Nat × Nat × R)) : List R :=
  (log.filter (fun e => e.1 == cns && e.2.1 == i)).map (fun e => e.2.2)

/-- The combined sequence of records returned from source `i`, across all
suppliers, in emission order. -/
def outFor {R : Type} (st : CState R) (i : Nat) : List R :=
  logFor i st.out.reverse

/-- The sequence of records supplier `cns` returned from source `i`, in
emission order. -/
def outForSup {R : Type} (st : CState R) (cns i : Nat) : List R :=
  logForSup cns i st.out.reverse

/-- Every published buffer has been taken and fully returned. -/
def cDrained {R : Type} (st : CState R) : Bool :=
  st.pending.all List.isEmpty && st.holding.all heldDone

/-- Contribution of one supplier's current buffer to source `i`'s
outstanding records. -/
def contrib {R : Type} (i : Nat) : Option (Nat × List R) → List R
  | none => []
  | some (j, rem) => if j = i then rem else []

/-- All records of source `i` currently sitting in supplier-held buffers. -/
def heldList {R : Type} (i : Nat) : List (Option (Nat × List R)) → List R
  | [] => []
  | h :: hs => contrib i h ++ heldList i hs

/-- The records supplier `cns` still holds from source `i`. -/
def heldRem {R : Type} (cns i : Nat) (holding : List (Option (Nat × List R))) :
    List R :=
  match nth holding cns with
  | some h => contrib i h
  | none => []

/-- All records of source `i`, wherever they currently are: already
returned, sitting in a supplier-held buffer, or still pending — the
conserved quantity of the system. -/
def account {R : Type} (st : CState R) (i : Nat) : List R :=
  outFor st i ++ heldList i st.holding ++ flat ((nth st.pending i).getD [])

theorem nth_set_self {α : Type} :
    ∀ (l : List α) (i : Nat) (x y : α), nth l i = some x →
      nth (l.set i y) i = some y := by
  intro l
  induction l with
  | nil => intro i x y hx; simp [nth] at hx
  | cons a as ih =>
    intro i x y hx
    cases i with
    | zero => rfl
    | succ j => exact ih j x y hx

theorem nth_set_other {α : Type} :
    ∀ (l : List α) (i j : Nat) (y : α), i ≠ j →
      nth (l.set j y) i = nth l i := by
  intro l
  induction l with
  | nil => intro i j y _; rfl
  | cons a as ih =>
    intro i j y hij
    cases j with
    | zero =>
      cases i with
      | zero => exact absurd rfl hij
      | succ i' => rfl
    | succ j' =>
      cases i with
      | zero => rfl
      | succ i' => exact ih i' j' y (by omega)

/-- Rotating the last block of a double append to the middle. -/
theorem perm_rot {R : Type} (a b c : List R) :
    ((a ++ b) ++ c).Perm ((a ++ c) ++ b) := by
  rw [List.append_assoc, List.append_assoc]
  exact List.Perm.append_left a List.perm_append_comm

theorem logFor_append {R : Type} (i : Nat) (l1 l2 : List (Nat × Nat × R)) :
    logFor i (l1 ++ l2) = logFor i l1 ++ logFor i l2 := by
  simp [logFor, List.filter_append]

theorem logForSup_append {R : Type} (cns i : Nat) (l1 l2 : List (Nat × Nat × R)) :
    logForSup cns i (l1 ++ l2) = logForSup cns i l1 ++ logForSup cns i l2 := by
  simp [logForSup, List.filter_append]

theorem logFor_single {R : Type} (i cns j : Nat) (r : R) :
    logFor i [(cns, j, r)] = if j = i then [r] else [] := by
  by_cases hj : j = i <;> simp [logFor, hj]

theorem logForSup_single {R : Type} (cns i cns' j : Nat) (r : R) :
    logForSup cns i [(cns', j, r)] =
      if cns' = cns ∧ j = i then [r] else [] := by
  by_cases hc : cns' = cns <;> by_cases hj : j = i <;>
    simp [logForSup, hc, hj]

theorem heldList_replicate_none {R : Type} (i : Nat) :
    ∀ k, heldList i (List.replicate k (none : Option (Nat × List R))) = [] := by
  intro k
  induction k with
  | zero => rfl
  | succ m ih => simpa [List.replicate, heldList, contrib] using ih

/-- Updating one supplier's held buffer exchanges its contribution in the
outstanding held records. -/
theorem heldList_set {R : Type} (i : Nat) :
    ∀ (hs : List (Option (Nat × List R))) (cns : Nat) (h h' : Option (Nat × List R)),
      nth hs cns = some h →
      (heldList i (hs.set cns h') ++ contrib i h).Perm
        (heldList i hs ++ contrib i h') := by
  intro hs
  induction hs with
  | nil =>
    intro cns h h' hh
    replace hh : (none : Option (Nat × List R)) = some h := hh
    cases hh
  | cons a as ih =>
    intro cns h h' hh
    cases cns with
    | zero =>
      replace hh : some a = some h := hh
      cases hh
      simp only [List.set, heldList]
      refine List.Perm.trans List.perm_append_comm ?_
      rw [← List.append_assoc]
      exact perm_rot _ _ _
    | succ m =>
      replace hh : nth as m = some h := hh
      simp only [List.set, heldList]
      rw [List.append_assoc, List.append_assoc]
      exact List.Perm.append_left _ (ih m h h' hh)

theorem contrib_of_heldDone {R : Type} (i : Nat) (h : Option (Nat × List R))
    (hd : heldDone h = true) : contrib i h = [] := by
  cases h with
  | none => rfl
  | some p =>
    obtain ⟨j, rem⟩ := p
    simp only [heldDone, List.isEmpty_iff] at hd
    subst hd
    simp [contrib]

theorem heldList_of_all_done {R : Type} (i : Nat) :
    ∀ (hs : List (Option (Nat × List R))), hs.all heldDone = true →
      heldList i hs = [] := by
  intro hs
  induction hs with
  | nil => intro _; rfl
  | cons a as ih =>
    intro hall
    simp only [List.all_cons, Bool.and_eq_true] at hall
    simp [heldList, contrib_of_heldDone i a hall.1, ih hall.2]

theorem nth_lt_length {α : Type} :
    ∀ (l : List α) (n : Nat) (x : α), nth l n = some x → n < l.length := by
  intro l
  induction l with
  | nil => intro n x hx; simp [nth] at hx
  | cons a as ih =>
    intro n x hx
    cases n with
    | zero => simp
    | succ m =>
      simp only [nth] at hx
      simpa using Nat.succ_lt_succ (ih m x hx)

theorem nth_mem {α : Type} :
    ∀ (l : List α) (n : Nat) (x : α), nth l n = some x → x ∈ l := by
  intro l
  induction l with
  | nil => intro n x hx; simp [nth] at hx
  | cons a as ih =>
    intro n x hx
    cases n with
    | zero => simp only [nth] at hx; cases hx; simp
    | succ m =>
      simp only [nth] at hx
      simp [ih m x hx]

theorem nth_map {α β : Type} (f : α → β) :
    ∀ (l : List α) (i : Nat), nth (l.map f) i = (nth l i).map f := by
  intro l
  induction l with
  | nil => intro i; rfl
  | cons a as ih =>
    intro i
    cases i with
    | zero => rfl
    | succ m => exact ih m

theorem flat_append {R : Type} :
    ∀ (x y : List (List R)), flat (x ++ y) = flat x ++ flat y := by
  intro x y
  induction x with
  | nil => rfl
  | cons a as ih => simp [flat, ih, List.append_assoc]

theorem heldRem_replicate_none {R : Type} (cns i k : Nat) :
    heldRem cns i (List.replicate k (none : Option (Nat × List R))) = [] := by
  unfold heldRem
  rcases hq : nth (List.replicate k (none : Option (Nat × List R))) cns with _ | h
  · rfl
  · have hmem := nth_mem _ _ _ hq
    have hnone := List.eq_of_mem_replicate hmem
    subst hnone
    rfl

/-- Characterization of a take step: it is a no-op, or the supplier needed a
buffer and group `g` had one pending. -/
theorem cDoStep_take_eq {R : Type} (st : CState R) (cns g : Nat) :
    cDoStep st (.take cns g) = st ∨
    ∃ h buf bufs, nth st.holding cns = some h ∧ heldDone h = true ∧
      nth st.pending g = some (buf :: bufs) ∧
      cDoStep st (.take cns g) =
        { st with holding := st.holding.set cns (some (g, buf)),
                  pending := st.pending.set g bufs } := by
  rcases hh : nth st.holding cns with _ | h
  · left; simp only [cDoStep, hh]
  · rcases hp : nth st.pending g with _ | q
    · left; simp only [cDoStep, hh, hp]
    · cases q with
      | nil => left; simp only [cDoStep, hh, hp]
      | cons buf bufs =>
        by_cases hd : heldDone h = true
        · right
          refine ⟨h, buf, bufs, rfl, hd, rfl, ?_⟩
          simp only [cDoStep, hh, hp]
          rw [if_pos hd]
        · left
          simp only [cDoStep, hh, hp]
          rw [if_neg hd]

/-- Characterization of an emit step: a no-op, or one record returned from
the supplier's current buffer. -/
theorem cDoStep_emit_eq {R : Type} (st : CState R) (cns : Nat) :
    cDoStep st (.emit cns) = st ∨
    ∃ j r rest, nth st.holding cns = some (some (j, r :: rest)) ∧
      cDoStep st (.emit cns) =
        { st with holding := st.holding.set cns (some (j, rest)),
                  out := (cns, j, r) :: st.out } := by
  rcases hh : nth st.holding cns with _ | h
  · left; simp only [cDoStep, hh]
  · cases h with
    | none => left; simp only [cDoStep, hh]
    | some p =>
      obtain ⟨j, rem⟩ := p
      cases rem with
      | nil => left; simp only [cDoStep, hh]
      | cons r rest =>
        right
        exact ⟨j, r, rest, rfl, by simp only [cDoStep, hh]⟩

theorem append_shuffle {R : Type} (o h b f : List R) :
    (o ++ (h ++ b)) ++ f = (o ++ h) ++ (b ++ f) := by
  simp [List.append_assoc]

theorem heldRem_eq {R : Type} (cns i : Nat)
    (holding : List (Option (Nat × List R))) (h : Option (Nat × List R))
    (hh : nth holding cns = some h) : heldRem cns i holding = contrib i h := by
  unfold heldRem
  rw [hh]

theorem heldRem_set_self {R : Type} (cns i : Nat)
    (holding : List (Option (Nat × List R))) (h h' : Option (Nat × List R))
    (hh : nth holding cns = some h) :
    heldRem cns i (holding.set cns h') = contrib i h' := by
  unfold heldRem
  rw [nth_set_self _ _ _ _ hh]

theorem heldRem_set_other {R : Type} (cns cns' i : Nat)
    (holding : List (Option (Nat × List R))) (h' : Option (Nat × List R))
    (hcc : cns' ≠ cns) :
    heldRem cns' i (holding.set cns h') = heldRem cns' i holding := by
  unfold heldRem
  rw [nth_set_other _ _ _ _ hcc]

/-- Each scheduler step permutes nothing in and nothing out of source `i`'s
account: records only move between pending buffers, held buffers, and the
output log. -/
theorem account_step {R : Type} (st : CState R) (s : CStep) (i : Nat) :
    (account (cDoStep st s) i).Perm (account st i) := by
  cases s with
  | take cns g =>
    rcases cDoStep_take_eq st cns g with heq | ⟨h, buf, bufs, hh, hd, hp, heq⟩
    · rw [heq]
    · rw [heq]
      unfold account outFor
      dsimp only
      by_cases hig : i = g
      · subst hig
        rw [nth_set_self st.pending i _ bufs hp, hp]
        simp only [Option.getD]
        have h0 := heldList_set i st.holding cns h (some (i, buf)) hh
        rw [contrib_of_heldDone i h hd, List.append_nil] at h0
        have hcb : contrib i (some (i, buf)) = buf := by simp [contrib]
        rw [hcb] at h0
        refine List.Perm.trans
          (List.Perm.append_right _ (List.Perm.append_left _ h0)) ?_
        rw [append_shuffle]
        exact List.Perm.of_eq rfl
      · rw [nth_set_other st.pending i g bufs hig]
        have h0 := heldList_set i st.holding cns h (some (g, buf)) hh
        rw [contrib_of_heldDone i h hd, List.append_nil] at h0
        have hcb : contrib i (some (g, buf)) = [] := by
          simp only [contrib]
          rw [if_neg (fun hgi => hig hgi.symm)]
        rw [hcb, List.append_nil] at h0
        exact List.Perm.append_right _ (List.Perm.append_left _ h0)
  | emit cns =>
    rcases cDoStep_emit_eq st cns with heq | ⟨j, r, rest, hh, heq⟩
    · rw [heq]
    · rw [heq]
      unfold account outFor
      dsimp only
      rw [List.reverse_cons, logFor_append, logFor_single]
      have h0 := heldList_set i st.holding cns (some (j, r :: rest)) (some (j, rest)) hh
      by_cases hji : j = i
      · subst hji
        rw [if_pos rfl]
        have hc1 : contrib j (some (j, r :: rest)) = r :: rest := by simp [contrib]
        have hc2 : contrib j (some (j, rest)) = rest := by simp [contrib]
        rw [hc1, hc2, ← List.singleton_append, ← List.append_assoc] at h0
        have h0' := (List.perm_append_right_iff rest).mp h0
        refine List.Perm.append_right _ ?_
        refine List.Perm.trans ?_ (List.Perm.append_left _ h0')
        rw [List.append_assoc]
        exact List.Perm.append_left _ List.perm_append_comm
      · rw [if_neg hji, List.append_nil]
        have hc1 : contrib i (some (j, r :: rest)) = [] := by
          simp only [contrib]
          rw [if_neg hji]
        have hc2 : contrib i (some (j, rest)) = [] := by
          simp only [contrib]
          rw [if_neg hji]
        rw [hc1, hc2, List.append_nil, List.append_nil] at h0
        exact List.Perm.append_right _ (List.Perm.append_left _ h0)

theorem account_run {R : Type} (i : Nat) :
    ∀ (steps : List CStep) (st : CState R),
      (account (cRun st steps) i).Perm (account st i) := by
  intro steps
  induction steps with
  | nil => intro st; exact List.Perm.refl _
  | cons s ss ih =>
    intro st
    exact (ih (cDoStep st s)).trans (account_step st s i)

theorem account_init {R : Type} (c k : Nat) (srcs : List (List R)) (i : Nat) :
    account (cInit c srcs k) i = (nth srcs i).getD [] := by
  unfold account cInit outFor
  dsimp only
  rw [heldList_replicate_none, nth_map]
  cases hsrc : nth srcs i with
  | none => simp [logFor, flat]
  | some src => simp [logFor, flat_chunk]

/-- Inductive order invariant: for every source the buffers taken so far
form a prefix `tk` of its published chunk list, and each supplier's
returned-plus-still-held records from that source are an order-preserving
selection of that prefix's records. -/
def OrderInv {R : Type} (c : Nat) (srcs : List (List R)) (st : CState R) : Prop :=
  ∀ i, ∃ tk : List (List R),
    chunk c ((nth srcs i).getD []) = tk ++ (nth st.pending i).getD [] ∧
    ∀ cns, (outForSup st cns i ++ heldRem cns i st.holding).Sublist (flat tk)

theorem orderInv_init {R : Type} (c k : Nat) (srcs : List (List R)) :
    OrderInv c srcs (cInit c srcs k) := by
  intro i
  refine ⟨[], ?_, ?_⟩
  · dsimp only [cInit]
    rw [nth_map]
    cases hsrc : nth srcs i with
    | none => rfl
    | some src => simp
  · intro cns
    dsimp only [cInit, outForSup]
    rw [heldRem_replicate_none]
    simp [logForSup]

theorem orderInv_step {R : Type} (c : Nat) (srcs : List (List R)) (st : CState R)
    (s : CStep) (hinv : OrderInv c srcs st) : OrderInv c srcs (cDoStep st s) := by
  cases s with
  | take cns g =>
    rcases cDoStep_take_eq st cns g with heq | ⟨h, buf, bufs, hh, hd, hp, heq⟩
    · rw [heq]; exact hinv
    · rw [heq]
      intro i
      obtain ⟨tk, htk, hsub⟩ := hinv i
      by_cases hig : i = g
      · subst hig
        refine ⟨tk ++ [buf], ?_, ?_⟩
        · dsimp only
          rw [nth_set_self st.pending i _ bufs hp]
          rw [htk, hp]
          simp [List.append_assoc]
        · intro cns'
          dsimp only [outForSup]
          by_cases hcc : cns' = cns
          · subst hcc
            rw [heldRem_set_self cns' i st.holding h _ hh]
            have hcb : contrib i (some (i, buf)) = buf := by simp [contrib]
            rw [hcb, flat_append]
            have hs0 : (logForSup cns' i st.out.reverse).Sublist (flat tk) := by
              have hs1 := hsub cns'
              rw [heldRem_eq cns' i st.holding h hh,
                contrib_of_heldDone i h hd, List.append_nil] at hs1
              exact hs1
            refine List.Sublist.append hs0 ?_
            simp [flat]
          · rw [heldRem_set_other cns cns' i st.holding _ hcc]
            exact (hsub cns').trans
              ((flat_append tk [buf]) ▸ List.sublist_append_left (flat tk) (flat [buf]))
      · refine ⟨tk, ?_, ?_⟩
        · dsimp only
          rw [nth_set_other st.pending i g bufs hig]
          exact htk
        · intro cns'
          dsimp only [outForSup]
          by_cases hcc : cns' = cns
          · subst hcc
            rw [heldRem_set_self cns' i st.holding h _ hh]
            have hcb : contrib i (some (g, buf)) = [] := by
              simp only [contrib]
              rw [if_neg (fun hgi => hig hgi.symm)]
            rw [hcb, List.append_nil]
            have hs1 := hsub cns'
            rw [heldRem_eq cns' i st.holding h hh,
              contrib_of_heldDone i h hd, List.append_nil] at hs1
            exact hs1
          · rw [heldRem_set_other cns cns' i st.holding _ hcc]
            exact hsub cns'
  | emit cns =>
    rcases cDoStep_emit_eq st cns with heq | ⟨j, r, rest, hh, heq⟩
    · rw [heq]; exact hinv
    · rw [heq]
      intro i
      obtain ⟨tk, htk, hsub⟩ := hinv i
      refine ⟨tk, htk, ?_⟩
      intro cns'
      dsimp only [outForSup]
      rw [List.reverse_cons, logForSup_append, logForSup_single]
      by_cases hcc : cns = cns'
      · subst hcc
        rw [heldRem_set_self cns i st.holding _ _ hh]
        by_cases hji : j = i
        · subst hji
          rw [if_pos ⟨rfl, rfl⟩]
          have hcb : contrib j (some (j, rest)) = rest := by simp [contrib]
          rw [hcb]
          have hs1 := hsub cns
          rw [heldRem_eq cns j st.holding _ hh] at hs1
          have hcb2 : contrib j (some (j, r :: rest)) = r :: rest := by simp [contrib]
          rw [hcb2] at hs1
          rw [List.append_assoc, List.singleton_append]
          exact hs1
        · rw [if_neg (fun hand => hji hand.2), List.append_nil]
          have hcb : contrib i (some (j, rest)) = [] := by
            simp only [contrib]
            rw [if_neg hji]
          rw [hcb, List.append_nil]
          have hs1 := hsub cns
          rw [heldRem_eq cns i st.holding _ hh] at hs1
          have hcb2 : contrib i (some (j, r :: rest)) = [] := by
            simp only [contrib]
            rw [if_neg hji]
          rw [hcb2, List.append_nil] at hs1
          exact hs1
      · rw [if_neg (fun hand => hcc hand.1), List.append_nil]
        rw [heldRem_set_other cns cns' i st.holding _ (fun hccs => hcc hccs.symm)]
        exact hsub cns'

theorem orderInv_run {R : Type} (c : Nat) (srcs : List (List R)) :
    ∀ (steps : List CStep) (st : CState R), OrderInv c srcs st →
      OrderInv c srcs (cRun st steps) := by
  intro steps
  induction steps with
  | nil => intro st h; exact h
  | cons s ss ih =>
    intro st h
    exact ih (cDoStep st s) (orderInv_step c srcs st s h)

/-- All output entries name a real supplier slot. -/
def ConsOk {R : Type} (k : Nat) (st : CState R) : Prop :=
  st.holding.length = k ∧ ∀ e ∈ st.out, e.1 < k

theorem consOk_step {R : Type} (k : Nat) (st : CState R) (s : CStep)
    (hc : ConsOk k st) : ConsOk k (cDoStep st s) := by
  cases s with
  | take cns g =>
    rcases cDoStep_take_eq st cns g with heq | ⟨h, buf, bufs, hh, hd, hp, heq⟩
    · rw [heq]; exact hc
    · rw [heq]
      refine ⟨?_, ?_⟩
      · dsimp only
        rw [List.length_set]
        exact hc.1
      · dsimp only
        exact hc.2
  | emit cns =>
    rcases cDoStep_emit_eq st cns with heq | ⟨j, r, rest, hh, heq⟩
    · rw [heq]; exact hc
    · rw [heq]
      refine ⟨?_, ?_⟩
      · dsimp only
        rw [List.length_set]
        exact hc.1
      · dsimp only
        intro e he
        rcases List.mem_cons.mp he with rfl | he'
        · have := nth_lt_length st.holding cns _ hh
          rw [hc.1] at this
          exact this
        · exact hc.2 e he'

theorem consOk_run {R : Type} (k : Nat) :
    ∀ (steps : List CStep) (st : CState R), ConsOk k st →
      ConsOk k (cRun st steps) := by
  intro steps
  induction steps with
  | nil => intro st h; exact h
  | cons s ss ih =>
    intro st h
    exact ih (cDoStep st s) (consOk_step k st s h)

theorem drained_pending {R : Type} (st : CState R) (hd : cDrained st = true)
    (i : Nat) : (nth st.pending i).getD [] = [] := by
  unfold cDrained at hd
  simp only [Bool.and_eq_true] at hd
  rcases hq : nth st.pending i with _ | q
  · rfl
  · have hm := nth_mem _ _ _ hq
    have hq2 := List.all_eq_true.mp hd.1 q hm
    simp only [Option.getD]
    exact List.isEmpty_iff.mp hq2

theorem logFor_eq_logForSup_zero {R : Type} (i : Nat)
    (log : List (Nat × Nat × R)) (hz : ∀ e ∈ log, e.1 = 0) :
    logFor i log = logForSup 0 i log := by
  unfold logFor logForSup
  rw [List.filter_congr ?_]
  intro e he
  rw [hz e he]
  simp

/-- C1 (amended): in the spec-modelled fan-out system, for every capacity,
supplier count, source family and schedule: (a) nothing is duplicated or
dropped — at any fully drained state the combined records observed from
source `i` are a permutation of its emission sequence; (b) each individual
supplier observes each source's records in emission order (an
order-preserving selection of the emission sequence); (c) when a single
supplier drains the queue, the combined sequence per source equals the
emission sequence exactly.  The claim's stronger statement — emission order
of the sequence *combined across several suppliers* — is what the
counterexample refutes. -/
theorem C1_single_record_ordering {R : Type} (c k : Nat) (srcs : List (List R))
    (steps : List CStep) :
    (∀ i src, nth srcs i = some src →
      cDrained (cRun (cInit c srcs k) steps) = true →
      (outFor (cRun (cInit c srcs k) steps) i).Perm src) ∧
    (∀ cns i src, nth srcs i = some src →
      (outForSup (cRun (cInit c srcs k) steps) cns i).Sublist src) ∧
    (k = 1 → ∀ i src, nth srcs i = some src →
      cDrained (cRun (cInit c srcs k) steps) = true →
      outFor (cRun (cInit c srcs k) steps) i = src) := by
  have partA : ∀ i src, nth srcs i = some src →
      cDrained (cRun (cInit c srcs k) steps) = true →
      (outFor (cRun (cInit c srcs k) steps) i).Perm src := by
    intro i src hsrc hdr
    have hacc := account_run i steps (cInit c srcs k)
    rw [account_init, hsrc] at hacc
    unfold cDrained at hdr
    simp only [Bool.and_eq_true] at hdr
    unfold account at hacc
    rw [heldList_of_all_done i _ hdr.2,
      drained_pending (cRun (cInit c srcs k) steps)
        (by unfold cDrained; simp only [Bool.and_eq_true]; exact hdr) i] at hacc
    simpa [flat] using hacc
  have partB : ∀ cns i src, nth srcs i = some src →
      (outForSup (cRun (cInit c srcs k) steps) cns i).Sublist src := by
    intro cns i src hsrc
    obtain ⟨tk, htk, hsub⟩ :=
      orderInv_run c srcs steps (cInit c srcs k) (orderInv_init c k srcs) i
    rw [hsrc] at htk
    simp only [Option.getD] at htk
    have h1 : (outForSup (cRun (cInit c srcs k) steps) cns i).Sublist (flat tk) :=
      (List.sublist_append_left _ _).trans (hsub cns)
    have h2 : (flat tk).Sublist src := by
      have h3 : flat (chunk c src) = src := flat_chunk c src
      rw [← h3, htk, flat_append]
      exact List.sublist_append_left _ _
    exact h1.trans h2
  refine ⟨partA, partB, ?_⟩
  intro hk i src hsrc hdr
  have hCO : ConsOk k (cRun (cInit c srcs k) steps) := by
    refine consOk_run k steps _ ⟨?_, ?_⟩
    · dsimp only [cInit]
      exact List.length_replicate k none
    · intro e he
      simp only [cInit] at he
      simp at he
  have hzero : ∀ e ∈ (cRun (cInit c srcs k) steps).out.reverse, e.1 = 0 := by
    intro e he
    have hlt := hCO.2 e (List.mem_reverse.mp he)
    omega
  have heq1 : outFor (cRun (cInit c srcs k) steps) i =
      outForSup (cRun (cInit c srcs k) steps) 0 i :=
    logFor_eq_logForSup_zero i _ hzero
  have hperm := partA i src hsrc hdr
  have hsubl := partB 0 i src hsrc
  rw [heq1]
  exact List.Sublist.eq_of_length hsubl (by rw [← heq1]; exact hperm.length_eq)

/-- Witness schedule: one supplier drains two sources {1,2,3} and {4,5}
(capacity 2: buffers [1,2],[3] and [4,5]) — the spec's §8 scenario. -/
def c1WitnessSteps : List CStep :=
  [CStep.take 0 0, CStep.emit 0, CStep.emit 0, CStep.take 0 0, CStep.emit 0,
   CStep.take 0 1, CStep.emit 0, CStep.emit 0]

theorem C1_single_record_ordering_witness :
    outFor (cRun (cInit 1 [[1, 2, 3], [4, 5]] 1) c1WitnessSteps) 0 = [1, 2, 3] ∧
    outFor (cRun (cInit 1 [[1, 2, 3], [4, 5]] 1) c1WitnessSteps) 1 = [4, 5] ∧
    (outForSup (cRun (cInit 1 [[1, 2, 3], [4, 5]] 1) c1WitnessSteps) 0 1).Sublist
      [4, 5] :=
  ⟨(C1_single_record_ordering 1 1 [[1, 2, 3], [4, 5]] c1WitnessSteps).2.2 rfl
      0 [1, 2, 3] (by decide) (by decide),
    (C1_single_record_ordering 1 1 [[1, 2, 3], [4, 5]] c1WitnessSteps).2.2 rfl
      1 [4, 5] (by decide) (by decide),
    (C1_single_record_ordering 1 1 [[1, 2, 3], [4, 5]] c1WitnessSteps).2.1
      0 1 [4, 5] (by decide)⟩

/-- The schedule refuting C1 as stated: one source publishing two buffers,
two suppliers; supplier 1 takes the second buffer and returns its record
before supplier 0 returns the first buffer's record. -/
def c1CexSteps : List CStep :=
  [CStep.take 0 0, CStep.take 1 0, CStep.emit 1, CStep.emit 0]

/-- The resulting drained state (capacity 1 here for a minimal instance;
the same schedule shape exists at the header's capacity 10000 with a
10001-record source, since the second buffer is handed out while the first
is still being drained). -/
def c1CexState : CState Nat := cRun (cInit 0 [[10, 20]] 2) c1CexSteps

/-- C1 as stated is false on the spec-modelled system: the run drains
completely, yet the combined sequence observed from source 0 is [20, 10],
not the emission order [10, 20]. -/
theorem C1_claim_counterexample :
    cDrained c1CexState = true ∧
    outFor c1CexState 0 = [20, 10] ∧
    outFor c1CexState 0 ≠ [10, 20] := by decide

/-- Witness for C2: sides A = [10, 20], B = [30, 40] with capacity 1 yield
pairs (10, 30) then (20, 40), matching the spec's §8 scenario. -/
theorem C2_paired_supplier_lockstep_witness :
    drainMatched (matchedBuffers 0 [10, 20] [30, 40]) = [(10, 30), (20, 40)] ∧
    (drainMatched (matchedBuffers 0 [10, 20] [30, 40])).get? 1 =
      some (20, 40) := by
  refine ⟨?_, (C2_paired_supplier_lockstep 0 [10, 20] [30, 40] (by decide)).2
    1 20 40 (by decide) (by decide)⟩
  rw [(C2_paired_supplier_lockstep 0 [10, 20] [30, 40] (by decide)).1]
  decide

/-! ## Spec-modelled queue-wide state (C4–C8)

`Modelled from the spec:` the shared state guarded by the header's single
`ExclusiveLock lock` (§5): the Free Pool (`emptyQueue`), each group's two
ready-queue slots, the Ready Dispatcher FIFO (`readerGroupsWithReadyReads`),
the checked-out buffers, and the lifecycle counters
(`nReadersRunning`, `nSuppliersRunning`, `allReadsQueued`).  Buffers are
identified by number.  Each `MStep` is one critical section executed under
the lock, so lock-protected transitions are modelled as atomic steps. -/

/-- The three queue construction forms (§6). -/
inductive Shape where
  | single
  | twoSources
  | pairedSingle
deriving DecidableEq

/-- One `ReaderGroup`: its shape, its two ready-queue slots (buffer ids in
publish order), and the per-half source-exhausted flags. -/
structure MGroup where
  shape : Shape
  slot0 : List Nat
  slot1 : List Nat
  finished0 : Bool
  finished1 : Bool
deriving DecidableEq

/-- `Modelled from the spec:` the publishability condition (§4.2): single
and paired-single groups need slot 0 non-empty; two-independent-sources
groups need both slots non-empty. -/
def MGroup.publishable (g : MGroup) : Bool :=
  match g.shape with
  | .twoSources => !g.slot0.isEmpty && !g.slot1.isEmpty
  | _ => !g.slot0.isEmpty

/-- The shared queue state. -/
structure MState where
  freePool : List Nat
  groups : List MGroup
  dispatcher : List Nat
  checkedOut : List Nat
  nReadersRunning : Nat
  nSuppliersRunning : Nat
  allReadsQueued : Bool
deriving DecidableEq

/-- The atomic (lock-protected) transitions of producers and consumers. -/
inductive MStep where
  | acquire
  | publish (g : Nat) (second : Bool) (b : Nat)
  | takeOne
  | takeMatched
  | release (b : Nat)
  | sourceFinished (g : Nat) (second : Bool)
  | readerDone
  | supplierDone
deriving DecidableEq

/-- Enqueue a published buffer on the designated ready-queue slot. -/
def addToSlot (grp : MGroup) (second : Bool) (b : Nat) : MGroup :=
  if second then { grp with slot1 := grp.slot1 ++ [b] }
  else { grp with slot0 := grp.slot0 ++ [b] }

/-- Mark one half of a group's source as exhausted. -/
def setFinished (grp : MGroup) (second : Bool) : MGroup :=
  if second then { grp with finished1 := true } else { grp with finished0 := true }

/-- `Modelled from the spec:` one critical section (§4.1–§4.3, §4.6,
missing from the sources).  `acquire`: a producer takes a buffer from the
Free Pool.  `publish`: a producer appends its filled buffer to a slot and
inserts the group into the dispatcher if it was absent and now meets its
publishability condition.  `takeOne`: pop the head group's slot-0 head;
remove the group if it drops below its condition.  `takeMatched`: pop both
heads together and remove the group.  `release`: return a drained buffer to
the Free Pool.  `sourceFinished`: mark a source half exhausted.
`readerDone`: a producer thread exits; the last one sets `allReadsQueued`.
Disabled steps leave the state unchanged (the thread would be blocked or
the call is a no-op). -/
def mDoStep (st : MState) : MStep → MState
  | .acquire =>
    match st.freePool with
    | [] => st
    | b :: rest => { st with freePool := rest, checkedOut := b :: st.checkedOut }
  | .publish g second b =>
    if b ∈ st.checkedOut then
      match nth st.groups g with
      | none => st
      | some grp =>
        let grp' := addToSlot grp second b
        { st with
          checkedOut := st.checkedOut.erase b,
          groups := st.groups.set g grp',
          dispatcher :=
            if g ∈ st.dispatcher then st.dispatcher
            else if grp'.publishable then st.dispatcher ++ [g]
            else st.dispatcher }
    else st
  | .takeOne =>
    match st.dispatcher with
    | [] => st
    | g :: rest =>
      match nth st.groups g with
      | none => st
      | some grp =>
        match grp.slot0 with
        | [] => st
        | b :: bs =>
          let grp' := { grp with slot0 := bs }
          { st with
            groups := st.groups.set g grp',
            checkedOut := b :: st.checkedOut,
            dispatcher := if grp'.publishable then g :: rest else rest }
  | .takeMatched =>
    match st.dispatcher with
    | [] => st
    | g :: rest =>
      match nth st.groups g with
      | none => st
      | some grp =>
        match grp.slot0, grp.slot1 with
        | b0 :: bs0, b1 :: bs1 =>
          { st with
            groups := st.groups.set g { grp with slot0 := bs0, slot1 := bs1 },
            checkedOut := b0 :: b1 :: st.checkedOut,
            dispatcher := rest }
        | _, _ => st
  | .release b =>
    if b ∈ st.checkedOut then
      { st with checkedOut := st.checkedOut.erase b,
                freePool := st.freePool ++ [b] }
    else st
  | .sourceFinished g second =>
    match nth st.groups g with
    | none => st
    | some grp => { st with groups := st.groups.set g (setFinished grp second) }
  | .readerDone =>
    match st.nReadersRunning with
    | 0 => st
    | n + 1 =>
      { st with nReadersRunning := n,
                allReadsQueued := st.allReadsQueued || n == 0 }
  | .supplierDone =>
    { st with nSuppliersRunning := st.nSuppliersRunning - 1 }

/-- A fresh group for each construction shape. -/
def MGroup.init (s : Shape) : MGroup := ⟨s, [], [], false, false⟩

/-- Producer threads per group: two for two-independent-sources groups
(§4.6), one otherwise. -/
def Shape.threads : Shape → Nat
  | .twoSources => 2
  | _ => 1

def threadCount : List Shape → Nat
  | [] => 0
  | s :: rest => s.threads + threadCount rest

/-- The state right after construction and `startReaders`: all buffers in
the Free Pool, empty slots, empty dispatcher, one thread per source
running. -/
def mInit (bufs : List Nat) (shapes : List Shape) (nSup : Nat) : MState :=
  { freePool := bufs
  , groups := shapes.map MGroup.init
  , dispatcher := []
  , checkedOut := []
  , nReadersRunning := threadCount shapes
  , nSuppliersRunning := nSup
  , allReadsQueued := threadCount shapes == 0 }

def mRun (st : MState) (steps : List MStep) : MState := steps.foldl mDoStep st

/-! ## Step characterizations for the queue-wide model -/

theorem mDoStep_acquire_eq (st : MState) :
    mDoStep st .acquire = st ∨
    ∃ b rest, st.freePool = b :: rest ∧
      mDoStep st .acquire =
        { st with freePool := rest, checkedOut := b :: st.checkedOut } := by
  rcases hf : st.freePool with _ | ⟨b, rest⟩
  · left; simp only [mDoStep, hf]
  · right; exact ⟨b, rest, rfl, by simp only [mDoStep, hf]⟩

theorem mDoStep_publish_eq (st : MState) (g : Nat) (second : Bool) (b : Nat) :
    mDoStep st (.publish g second b) = st ∨
    ∃ grp, b ∈ st.checkedOut ∧ nth st.groups g = some grp ∧
      mDoStep st (.publish g second b) =
        { st with
          checkedOut := st.checkedOut.erase b,
          groups := st.groups.set g (addToSlot grp second b),
          dispatcher :=
            if g ∈ st.dispatcher then st.dispatcher
            else if (addToSlot grp second b).publishable then st.dispatcher ++ [g]
            else st.dispatcher } := by
  by_cases hb : b ∈ st.checkedOut
  · rcases hg : nth st.groups g with _ | grp
    · left
      simp only [mDoStep]
      rw [if_pos hb, hg]
    · right
      refine ⟨grp, hb, rfl, ?_⟩
      simp only [mDoStep]
      rw [if_pos hb, hg]
  · left
    simp only [mDoStep]
    rw [if_neg hb]

theorem mDoStep_takeOne_eq (st : MState) :
    mDoStep st .takeOne = st ∨
    ∃ g rest grp b bs, st.dispatcher = g :: rest ∧ nth st.groups g = some grp ∧
      grp.slot0 = b :: bs ∧
      mDoStep st .takeOne =
        { st with groups := st.groups.set g { grp with slot0 := bs },
                  checkedOut := b :: st.checkedOut,
                  dispatcher :=
                    if ({ grp with slot0 := bs } : MGroup).publishable
                    then g :: rest else rest } := by
  rcases hd : st.dispatcher with _ | ⟨g, rest⟩
  · left; simp only [mDoStep, hd]
  · rcases hg : nth st.groups g with _ | grp
    · left; simp only [mDoStep, hd, hg]
    · rcases hs : grp.slot0 with _ | ⟨b, bs⟩
      · left; simp only [mDoStep, hd, hg, hs]
      · right
        refine ⟨g, rest, grp, b, bs, rfl, hg, hs, ?_⟩
        simp only [mDoStep, hd, hg, hs]

theorem mDoStep_takeMatched_eq (st : MState) :
    mDoStep st .takeMatched = st ∨
    ∃ g rest grp b0 bs0 b1 bs1, st.dispatcher = g :: rest ∧
      nth st.groups g = some grp ∧ grp.slot0 = b0 :: bs0 ∧ grp.slot1 = b1 :: bs1 ∧
      mDoStep st .takeMatched =
        { st with groups := st.groups.set g { grp with slot0 := bs0, slot1 := bs1 },
                  checkedOut := b0 :: b1 :: st.checkedOut,
                  dispatcher := rest } := by
  rcases hd : st.dispatcher with _ | ⟨g, rest⟩
  · left; simp only [mDoStep, hd]
  · rcases hg : nth st.groups g with _ | grp
    · left; simp only [mDoStep, hd, hg]
    · rcases hs0 : grp.slot0 with _ | ⟨b0, bs0⟩
      · left
        rcases hs1 : grp.slot1 with _ | ⟨b1, bs1⟩ <;> simp only [mDoStep, hd, hg, hs0, hs1]
      · rcases hs1 : grp.slot1 with _ | ⟨b1, bs1⟩
        · left; simp only [mDoStep, hd, hg, hs0, hs1]
        · right
          refine ⟨g, rest, grp, b0, bs0, b1, bs1, rfl, hg, hs0, hs1, ?_⟩
          simp only [mDoStep, hd, hg, hs0, hs1]

theorem mDoStep_release_eq (st : MState) (b : Nat) :
    mDoStep st (.release b) = st ∨
    (b ∈ st.checkedOut ∧
      mDoStep st (.release b) =
        { st with checkedOut := st.checkedOut.erase b,
                  freePool := st.freePool ++ [b] }) := by
  by_cases hb : b ∈ st.checkedOut
  · right
    refine ⟨hb, ?_⟩
    simp only [mDoStep]
    rw [if_pos hb]
  · left
    simp only [mDoStep]
    rw [if_neg hb]

theorem mDoStep_sourceFinished_eq (st : MState) (g : Nat) (second : Bool) :
    mDoStep st (.sourceFinished g second) = st ∨
    ∃ grp, nth st.groups g = some grp ∧
      mDoStep st (.sourceFinished g second) =
        { st with groups := st.groups.set g (setFinished grp second) } := by
  rcases hg : nth st.groups g with _ | grp
  · left; simp only [mDoStep, hg]
  · right; exact ⟨grp, rfl, by simp only [mDoStep, hg]⟩

theorem mDoStep_readerDone_eq (st : MState) :
    mDoStep st .readerDone = st ∨
    ∃ n, st.nReadersRunning = n + 1 ∧
      mDoStep st .readerDone =
        { st with nReadersRunning := n,
                  allReadsQueued := st.allReadsQueued || n == 0 } := by
  rcases hn : st.nReadersRunning with _ | n
  · left; simp only [mDoStep, hn]
  · right; exact ⟨n, rfl, by simp only [mDoStep, hn]⟩

theorem mDoStep_supplierDone_eq (st : MState) :
    mDoStep st .supplierDone =
      { st with nSuppliersRunning := st.nSuppliersRunning - 1 } := rfl

/-! ## C4: dispatcher membership implies publishability -/

theorem publishable_addToSlot (grp : MGroup) (second : Bool) (b : Nat)
    (hp : grp.publishable = true) :
    (addToSlot grp second b).publishable = true := by
  obtain ⟨sh, s0, s1, f0, f1⟩ := grp
  cases second <;> cases sh <;>
    simp_all [addToSlot, MGroup.publishable, List.isEmpty_iff]

theorem publishable_setFinished (grp : MGroup) (second : Bool) :
    (setFinished grp second).publishable = grp.publishable := by
  cases second <;> rfl

theorem setFinished_slot0 (grp : MGroup) (second : Bool) :
    (setFinished grp second).slot0 = grp.slot0 := by
  cases second <;> rfl

theorem setFinished_slot1 (grp : MGroup) (second : Bool) :
    (setFinished grp second).slot1 = grp.slot1 := by
  cases second <;> rfl

theorem nodup_append_singleton {α : Type} (l : List α) (x : α) (hn : l.Nodup)
    (hx : x ∉ l) : (l ++ [x]).Nodup := by
  induction l with
  | nil => simp
  | cons a as ih =>
    simp only [List.mem_cons, not_or] at hx
    simp only [List.cons_append, List.nodup_cons] at hn ⊢
    refine ⟨?_, ih hn.2 hx.2⟩
    intro hmem
    rcases List.mem_append.mp hmem with h | h
    · exact hn.1 h
    · exact hx.1 (List.mem_singleton.mp h).symm

/-- C4's invariant: the dispatcher FIFO has no duplicate groups and every
member group currently meets its publishability condition. -/
def DispInv (st : MState) : Prop :=
  st.dispatcher.Nodup ∧
  ∀ i ∈ st.dispatcher, ∃ grp, nth st.groups i = some grp ∧ grp.publishable = true

theorem dispInv_step (st : MState) (s : MStep) (hinv : DispInv st) :
    DispInv (mDoStep st s) := by
  cases s with
  | acquire =>
    rcases mDoStep_acquire_eq st with heq | ⟨b, rest, hf, heq⟩ <;> rw [heq] <;>
      exact hinv
  | publish g second b =>
    rcases mDoStep_publish_eq st g second b with heq | ⟨grp, hb, hg, heq⟩
    · rw [heq]; exact hinv
    · rw [heq]
      constructor
      · dsimp only
        by_cases hgd : g ∈ st.dispatcher
        · rw [if_pos hgd]; exact hinv.1
        · rw [if_neg hgd]
          by_cases hpub : (addToSlot grp second b).publishable = true
          · rw [if_pos hpub]
            exact nodup_append_singleton _ _ hinv.1 hgd
          · rw [if_neg hpub]; exact hinv.1
      · intro i hi
        dsimp only at hi ⊢
        by_cases hig : i = g
        · subst hig
          refine ⟨addToSlot grp second b, nth_set_self _ _ _ _ hg, ?_⟩
          by_cases hgd : i ∈ st.dispatcher
          · obtain ⟨grp0, hg0, hp0⟩ := hinv.2 i hgd
            rw [hg] at hg0
            cases hg0
            exact publishable_addToSlot _ second b hp0
          · rw [if_neg hgd] at hi
            by_cases hpub : (addToSlot grp second b).publishable = true
            · exact hpub
            · rw [if_neg hpub] at hi
              exact absurd hi hgd
        · have hmem : i ∈ st.dispatcher := by
            by_cases hgd : g ∈ st.dispatcher
            · rw [if_pos hgd] at hi; exact hi
            · rw [if_neg hgd] at hi
              by_cases hpub : (addToSlot grp second b).publishable = true
              · rw [if_pos hpub] at hi
                rcases List.mem_append.mp hi with h | h
                · exact h
                · exact absurd (List.mem_singleton.mp h) hig
              · rw [if_neg hpub] at hi; exact hi
          obtain ⟨grp0, hg0, hp0⟩ := hinv.2 i hmem
          refine ⟨grp0, ?_, hp0⟩
          rw [nth_set_other _ _ _ _ hig]
          exact hg0
  | takeOne =>
    rcases mDoStep_takeOne_eq st with heq | ⟨g, rest, grp, b, bs, hd, hg, hs, heq⟩
    · rw [heq]; exact hinv
    · rw [heq]
      have hnd : (g :: rest).Nodup := hd ▸ hinv.1
      have hgrest : g ∉ rest := (List.nodup_cons.mp hnd).1
      constructor
      · dsimp only
        by_cases hpub : ({ grp with slot0 := bs } : MGroup).publishable = true
        · rw [if_pos hpub]; exact hnd
        · rw [if_neg hpub]; exact (List.nodup_cons.mp hnd).2
      · intro i hi
        dsimp only at hi ⊢
        by_cases hig : i = g
        · subst hig
          refine ⟨{ grp with slot0 := bs }, nth_set_self _ _ _ _ hg, ?_⟩
          by_cases hpub : ({ grp with slot0 := bs } : MGroup).publishable = true
          · exact hpub
          · rw [if_neg hpub] at hi
            exact absurd hi hgrest
        · have hmem : i ∈ st.dispatcher := by
            rw [hd]
            by_cases hpub : ({ grp with slot0 := bs } : MGroup).publishable = true
            · rw [if_pos hpub] at hi; exact hi
            · rw [if_neg hpub] at hi
              exact List.mem_cons_of_mem g hi
          obtain ⟨grp0, hg0, hp0⟩ := hinv.2 i hmem
          refine ⟨grp0, ?_, hp0⟩
          rw [nth_set_other _ _ _ _ hig]
          exact hg0
  | takeMatched =>
    rcases mDoStep_takeMatched_eq st with
      heq | ⟨g, rest, grp, b0, bs0, b1, bs1, hd, hg, hs0, hs1, heq⟩
    · rw [heq]; exact hinv
    · rw [heq]
      have hnd : (g :: rest).Nodup := hd ▸ hinv.1
      have hgrest : g ∉ rest := (List.nodup_cons.mp hnd).1
      constructor
      · dsimp only
        exact (List.nodup_cons.mp hnd).2
      · intro i hi
        dsimp only at hi ⊢
        have hig : i ≠ g := fun h => hgrest (h ▸ hi)
        have hmem : i ∈ st.dispatcher := by
          rw [hd]
          exact List.mem_cons_of_mem g hi
        obtain ⟨grp0, hg0, hp0⟩ := hinv.2 i hmem
        refine ⟨grp0, ?_, hp0⟩
        rw [nth_set_other _ _ _ _ hig]
        exact hg0
  | release b =>
    rcases mDoStep_release_eq st b with heq | ⟨hb, heq⟩ <;> rw [heq] <;> exact hinv
  | sourceFinished g second =>
    rcases mDoStep_sourceFinished_eq st g second with heq | ⟨grp, hg, heq⟩
    · rw [heq]; exact hinv
    · rw [heq]
      refine ⟨hinv.1, ?_⟩
      intro i hi
      dsimp only at hi ⊢
      obtain ⟨grp0, hg0, hp0⟩ := hinv.2 i hi
      by_cases hig : i = g
      · subst hig
        rw [hg] at hg0
        cases hg0
        refine ⟨setFinished grp second, nth_set_self _ _ _ _ hg, ?_⟩
        rw [publishable_setFinished]
        exact hp0
      · refine ⟨grp0, ?_, hp0⟩
        rw [nth_set_other _ _ _ _ hig]
        exact hg0
  | readerDone =>
    rcases mDoStep_readerDone_eq st with heq | ⟨n, hn, heq⟩ <;> rw [heq] <;>
      exact hinv
  | supplierDone =>
    rw [mDoStep_supplierDone_eq]
    exact hinv

theorem dispInv_run :
    ∀ (steps : List MStep) (st : MState), DispInv st → DispInv (mRun st steps) := by
  intro steps
  induction steps with
  | nil => intro st h; exact h
  | cons s ss ih =>
    intro st h
    exact ih (mDoStep st s) (dispInv_step st s h)

theorem dispInv_init (bufs : List Nat) (shapes : List Shape) (nSup : Nat) :
    DispInv (mInit bufs shapes nSup) := by
  refine ⟨List.nodup_nil, ?_⟩
  intro i hi
  simp [mInit] at hi

/-- C4: in every state reachable from construction by producer publishes,
consumer takes and the other lifecycle steps, a group sits in the Ready
Dispatcher FIFO only while it meets its publishability condition (slot 0
non-empty; for two-independent-sources groups both slots non-empty). -/
theorem C4_dispatcher_members_publishable (bufs : List Nat)
    (shapes : List Shape) (nSup : Nat) (steps : List MStep) (i : Nat)
    (grp : MGroup)
    (hmem : i ∈ (mRun (mInit bufs shapes nSup) steps).dispatcher)
    (hg : nth (mRun (mInit bufs shapes nSup) steps).groups i = some grp) :
    grp.publishable = true := by
  obtain ⟨grp0, hg0, hp0⟩ :=
    (dispInv_run steps _ (dispInv_init bufs shapes nSup)).2 i hmem
  rw [hg] at hg0
  cases hg0
  exact hp0

/-- Witness for C4: after one producer acquires buffer 0 and publishes it to
the single group 0, the dispatcher holds group 0 and that group is
publishable. -/
theorem C4_dispatcher_members_publishable_witness :
    (⟨Shape.single, [0], [], false, false⟩ : MGroup).publishable = true :=
  C4_dispatcher_members_publishable [0] [Shape.single] 1
    [MStep.acquire, MStep.publish 0 false 0] 0
    ⟨Shape.single, [0], [], false, false⟩ (by decide) (by decide)

/-! ## C5: every buffer is in exactly one place -/

/-- All buffers sitting in ready-queue slots, as a multiset. -/
def slotsAllM : List MGroup → Multiset Nat
  | [] => 0
  | g :: gs => ((g.slot0 : Multiset Nat) + (g.slot1 : Multiset Nat)) + slotsAllM gs

/-- The four places of the data model, combined: Free Pool + all ready-queue
slots + checked out.  (The dispatcher holds group indices, not buffers.) -/
def placesM (st : MState) : Multiset Nat :=
  ((st.freePool : Multiset Nat) + slotsAllM st.groups) +
    (st.checkedOut : Multiset Nat)

theorem add_exchange {M : Type} [AddCommMonoid M] (A S' H S G : M)
    (hh : S' + H = S + G) : (A + S') + H = (A + S) + G := by
  rw [add_assoc, hh, ← add_assoc]

theorem slotsAllM_set :
    ∀ (gs : List MGroup) (g : Nat) (grp grp' : MGroup), nth gs g = some grp →
      slotsAllM (gs.set g grp') +
          ((grp.slot0 : Multiset Nat) + (grp.slot1 : Multiset Nat)) =
        slotsAllM gs +
          ((grp'.slot0 : Multiset Nat) + (grp'.slot1 : Multiset Nat)) := by
  intro gs
  induction gs with
  | nil =>
    intro g grp grp' hg
    replace hg : (none : Option MGroup) = some grp := hg
    cases hg
  | cons a as ih =>
    intro g grp grp' hg
    cases g with
    | zero =>
      replace hg : some a = some grp := hg
      cases hg
      simp only [List.set, slotsAllM]
      abel
    | succ m =>
      replace hg : nth as m = some grp := hg
      simp only [List.set, slotsAllM]
      exact add_exchange _ _ _ _ _ (ih m grp grp' hg)

theorem coe_cons_split (b : Nat) (l : List Nat) :
    ((b :: l : List Nat) : Multiset Nat) = {b} + (l : Multiset Nat) := by
  rw [Multiset.singleton_add, Multiset.cons_coe]

theorem coe_append_split (l1 l2 : List Nat) :
    ((l1 ++ l2 : List Nat) : Multiset Nat) =
      (l1 : Multiset Nat) + (l2 : Multiset Nat) :=
  (Multiset.coe_add l1 l2).symm

theorem coe_erase_exchange (b : Nat) (l : List Nat) (hb : b ∈ l) :
    (l : Multiset Nat) = {b} + (l.erase b : Multiset Nat) := by
  rw [Multiset.singleton_add, Multiset.cons_coe]
  exact Multiset.coe_eq_coe.mpr (List.perm_cons_erase hb)

/-- Each atomic step conserves the buffer multiset across the four places. -/
theorem places_step (st : MState) (s : MStep) :
    placesM (mDoStep st s) = placesM st := by
  cases s with
  | acquire =>
    rcases mDoStep_acquire_eq st with heq | ⟨b, rest, hf, heq⟩
    · rw [heq]
    · rw [heq]
      unfold placesM
      dsimp only
      rw [hf, coe_cons_split, coe_cons_split]
      abel
  | publish g second b =>
    rcases mDoStep_publish_eq st g second b with heq | ⟨grp, hb, hg, heq⟩
    · rw [heq]
    · rw [heq]
      unfold placesM
      dsimp only
      have hset := slotsAllM_set st.groups g grp (addToSlot grp second b) hg
      have hslots : ((addToSlot grp second b).slot0 : Multiset Nat) +
          ((addToSlot grp second b).slot1 : Multiset Nat) =
          ((grp.slot0 : Multiset Nat) + (grp.slot1 : Multiset Nat)) + {b} := by
        cases second <;>
          simp only [addToSlot, if_true, if_false, Bool.false_eq_true] <;>
          rw [coe_append_split, Multiset.coe_singleton] <;> abel
      have h2 : slotsAllM (st.groups.set g (addToSlot grp second b)) +
          ((grp.slot0 : Multiset Nat) + (grp.slot1 : Multiset Nat)) =
          (slotsAllM st.groups + {b}) +
            ((grp.slot0 : Multiset Nat) + (grp.slot1 : Multiset Nat)) := by
        rw [hset, hslots]
        abel
      have hS := add_right_cancel h2
      rw [hS, coe_erase_exchange b st.checkedOut hb]
      abel
  | takeOne =>
    rcases mDoStep_takeOne_eq st with heq | ⟨g, rest, grp, b, bs, hd, hg, hs, heq⟩
    · rw [heq]
    · rw [heq]
      unfold placesM
      dsimp only
      have hset := slotsAllM_set st.groups g grp { grp with slot0 := bs } hg
      rw [hs] at hset
      have h2 : (slotsAllM (st.groups.set g { grp with slot0 := bs }) + {b}) +
          ((bs : Multiset Nat) + (grp.slot1 : Multiset Nat)) =
          slotsAllM st.groups +
            ((bs : Multiset Nat) + (grp.slot1 : Multiset Nat)) := by
        rw [← hset, coe_cons_split]
        abel
      have hS := add_right_cancel h2
      rw [coe_cons_split b st.checkedOut, ← hS]
      abel
  | takeMatched =>
    rcases mDoStep_takeMatched_eq st with
      heq | ⟨g, rest, grp, b0, bs0, b1, bs1, hd, hg, hs0, hs1, heq⟩
    · rw [heq]
    · rw [heq]
      unfold placesM
      dsimp only
      have hset := slotsAllM_set st.groups g grp
        { grp with slot0 := bs0, slot1 := bs1 } hg
      rw [hs0, hs1] at hset
      have h2 : ((slotsAllM (st.groups.set g { grp with slot0 := bs0, slot1 := bs1 }) +
            {b0}) + {b1}) + ((bs0 : Multiset Nat) + (bs1 : Multiset Nat)) =
          slotsAllM st.groups + ((bs0 : Multiset Nat) + (bs1 : Multiset Nat)) := by
        rw [← hset, coe_cons_split, coe_cons_split]
        abel
      have hS := add_right_cancel h2
      rw [coe_cons_split b0, coe_cons_split b1, ← hS]
      abel
  | release b =>
    rcases mDoStep_release_eq st b with heq | ⟨hb, heq⟩
    · rw [heq]
    · rw [heq]
      unfold placesM
      dsimp only
      rw [coe_append_split, Multiset.coe_singleton,
        coe_erase_exchange b st.checkedOut hb]
      abel
  | sourceFinished g second =>
    rcases mDoStep_sourceFinished_eq st g second with heq | ⟨grp, hg, heq⟩
    · rw [heq]
    · rw [heq]
      unfold placesM
      dsimp only
      have hset := slotsAllM_set st.groups g grp (setFinished grp second) hg
      rw [setFinished_slot0, setFinished_slot1] at hset
      have hS := add_right_cancel hset
      rw [hS]
  | readerDone =>
    rcases mDoStep_readerDone_eq st with heq | ⟨n, hn, heq⟩ <;> rw [heq]
    rfl
  | supplierDone =>
    rw [mDoStep_supplierDone_eq]
    rfl

theorem places_run :
    ∀ (steps : List MStep) (st : MState), placesM (mRun st steps) = placesM st := by
  intro steps
  induction steps with
  | nil => intro st; rfl
  | cons s ss ih =>
    intro st
    rw [show mRun st (s :: ss) = mRun (mDoStep st s) ss from rfl, ih, places_step]

theorem slotsAllM_init : ∀ (shapes : List Shape),
    slotsAllM (shapes.map MGroup.init) = 0 := by
  intro shapes
  induction shapes with
  | nil => rfl
  | cons s rest ih =>
    simp only [List.map, slotsAllM, MGroup.init, ih]
    rfl

theorem places_init (bufs : List Nat) (shapes : List Shape) (nSup : Nat) :
    placesM (mInit bufs shapes nSup) = (bufs : Multiset Nat) := by
  unfold placesM mInit
  dsimp only
  rw [slotsAllM_init]
  simp

/-- C5: in every reachable state, the Free Pool, the groups' ready-queue
slots 0 and 1, and the checked-out set together hold exactly the buffers
the queue was constructed with, each exactly once (for a duplicate-free
construction): every buffer is in exactly one of the four places.  Each
transition between places is one `mDoStep`, i.e. one critical section of
the single shared lock. -/
theorem C5_buffer_in_exactly_one_place (bufs : List Nat) (shapes : List Shape)
    (nSup : Nat) (steps : List MStep) :
    placesM (mRun (mInit bufs shapes nSup) steps) = (bufs : Multiset Nat) ∧
    (bufs.Nodup → ∀ b ∈ bufs,
      Multiset.count b (placesM (mRun (mInit bufs shapes nSup) steps)) = 1) := by
  have hmain : placesM (mRun (mInit bufs shapes nSup) steps) = (bufs : Multiset Nat) :=
    (places_run steps _).trans (places_init bufs shapes nSup)
  refine ⟨hmain, ?_⟩
  intro hnd b hb
  rw [hmain, Multiset.coe_count]
  exact List.count_eq_one_of_mem hnd hb

/-- Witness for C5: two buffers, one taken by a producer — buffer 1 sits in
the pool, buffer 0 is checked out, and each is counted exactly once. -/
theorem C5_buffer_in_exactly_one_place_witness :
    placesM (mRun (mInit [0, 1] [Shape.single] 1) [MStep.acquire]) =
      (([0, 1] : List Nat) : Multiset Nat) ∧
    Multiset.count 0 (placesM (mRun (mInit [0, 1] [Shape.single] 1)
      [MStep.acquire])) = 1 :=
  ⟨(C5_buffer_in_exactly_one_place [0, 1] [Shape.single] 1 [MStep.acquire]).1,
    (C5_buffer_in_exactly_one_place [0, 1] [Shape.single] 1 [MStep.acquire]).2
      (by decide) 0 (by decide)⟩

/-! ## C6: waitUntilFinished postcondition -/

/-- `Modelled from the spec:` the condition under which `waitUntilFinished`
(§4.6, missing from the sources) stops blocking: running-producer count
zero, running-consumer count zero, and the Free Pool holding as many
buffers as it was constructed with. -/
def waitUntilFinishedReady (st : MState) (nBufs : Nat) : Bool :=
  (st.nReadersRunning == 0) && (st.nSuppliersRunning == 0) &&
    (st.freePool.length == nBufs)

theorem slotsAllM_zero :
    ∀ (gs : List MGroup), slotsAllM gs = 0 →
      ∀ g ∈ gs, g.slot0 = [] ∧ g.slot1 = [] := by
  intro gs
  induction gs with
  | nil => intro _ g hg; simp at hg
  | cons a as ih =>
    intro hz g hg
    simp only [slotsAllM] at hz
    have hz2 := add_eq_zero.mp hz
    have hz3 := add_eq_zero.mp hz2.1
    rcases List.mem_cons.mp hg with rfl | hg'
    · exact ⟨(Multiset.coe_eq_zero g.slot0).mp hz3.1,
        (Multiset.coe_eq_zero g.slot1).mp hz3.2⟩
    · exact ih hz2.2 g hg'

/-- C6: whenever the `waitUntilFinished` return condition holds in a
reachable state — both counters zero and the Free Pool back to its
constructed size — no buffer is checked out, every ready-queue slot is
empty, and the Free Pool holds exactly the original buffers. -/
theorem C6_wait_until_finished_drained (bufs : List Nat) (shapes : List Shape)
    (nSup : Nat) (steps : List MStep)
    (hw : waitUntilFinishedReady (mRun (mInit bufs shapes nSup) steps)
      bufs.length = true) :
    (mRun (mInit bufs shapes nSup) steps).checkedOut = [] ∧
    (∀ g ∈ (mRun (mInit bufs shapes nSup) steps).groups,
      g.slot0 = [] ∧ g.slot1 = []) ∧
    ((mRun (mInit bufs shapes nSup) steps).freePool : Multiset Nat) =
      (bufs : Multiset Nat) ∧
    (mRun (mInit bufs shapes nSup) steps).freePool.length = bufs.length ∧
    (mRun (mInit bufs shapes nSup) steps).nReadersRunning = 0 ∧
    (mRun (mInit bufs shapes nSup) steps).nSuppliersRunning = 0 := by
  unfold waitUntilFinishedReady at hw
  simp only [Bool.and_eq_true, beq_iff_eq] at hw
  have hplaces : placesM (mRun (mInit bufs shapes nSup) steps) =
      (bufs : Multiset Nat) :=
    (places_run steps _).trans (places_init bufs shapes nSup)
  have hcard := congrArg Multiset.card hplaces
  unfold placesM at hcard
  rw [Multiset.card_add, Multiset.card_add, Multiset.coe_card,
    Multiset.coe_card, Multiset.coe_card] at hcard
  rw [hw.2] at hcard
  have hrest : Multiset.card
      (slotsAllM (mRun (mInit bufs shapes nSup) steps).groups) = 0 ∧
      (mRun (mInit bufs shapes nSup) steps).checkedOut.length = 0 := by omega
  have hco : (mRun (mInit bufs shapes nSup) steps).checkedOut = [] :=
    List.length_eq_zero.mp hrest.2
  have hsl : slotsAllM (mRun (mInit bufs shapes nSup) steps).groups = 0 :=
    Multiset.card_eq_zero.mp hrest.1
  refine ⟨hco, slotsAllM_zero _ hsl, ?_, hw.2, hw.1.1, hw.1.2⟩
  unfold placesM at hplaces
  rw [hsl, hco] at hplaces
  simpa using hplaces

/-- Witness for C6: one buffer, one producer that acquires, publishes
nothing (zero-record source), returns the buffer and exits; one supplier
that finishes.  The wait condition holds and the pool is whole again. -/
theorem C6_wait_until_finished_drained_witness :
    (mRun (mInit [7] [Shape.single] 1)
      [MStep.acquire, MStep.release 7, MStep.sourceFinished 0 false,
        MStep.readerDone, MStep.supplierDone]).checkedOut = [] ∧
    ((mRun (mInit [7] [Shape.single] 1)
      [MStep.acquire, MStep.release 7, MStep.sourceFinished 0 false,
        MStep.readerDone, MStep.supplierDone]).freePool : Multiset Nat) =
      (([7] : List Nat) : Multiset Nat) := by
  have h := C6_wait_until_finished_drained [7] [Shape.single] 1
    [MStep.acquire, MStep.release 7, MStep.sourceFinished 0 false,
      MStep.readerDone, MStep.supplierDone] (by decide)
  exact ⟨h.1, h.2.2.1⟩

/-! ## C8: a zero-record source -/

/-- `Modelled from the spec:` the producer thread of a source that is
exhausted from the start (§4.2, `ReaderThread` missing from the sources):
it acquires a buffer, reads zero records into it (`used == 0`, cf.
`chunk cap [] = []` — no buffer is ever published for an empty source),
returns the buffer directly to the Free Pool unused, marks its half
finished and exits, decrementing the running-reader count.  With an empty
Free Pool the thread would still be blocked in `acquire`. -/
def zeroSourceReaderThread (st : MState) (g : Nat) (second : Bool) : MState :=
  match st.freePool with
  | [] => st
  | b :: _ =>
    mRun st [MStep.acquire, MStep.release b, MStep.sourceFinished g second,
      MStep.readerDone]

/-- C8: a source that exhausts with zero records returns its acquired
buffer to the Free Pool unused and unpublished: the dispatcher is
untouched (its group never enters the Ready Dispatcher on this account),
every ready-queue slot keeps exactly its buffers, nothing stays checked
out, the Free Pool holds the same buffers as before (so no other producer
is starved), the running-reader count drops, and if this was the last
producer `allReadsQueued` becomes true so blocked consumers observe
end-of-stream instead of waiting forever; the producer loop publishes no
buffer for an empty source (`chunk cap [] = []`). -/
theorem C8_zero_record_source (st : MState) (g : Nat) (second : Bool)
    (b : Nat) (rest : List Nat) (m : Nat)
    (hpool : st.freePool = b :: rest) (hn : st.nReadersRunning = m + 1) :
    (zeroSourceReaderThread st g second).dispatcher = st.dispatcher ∧
    slotsAllM (zeroSourceReaderThread st g second).groups =
      slotsAllM st.groups ∧
    (zeroSourceReaderThread st g second).checkedOut = st.checkedOut ∧
    (zeroSourceReaderThread st g second).freePool = rest ++ [b] ∧
    ((zeroSourceReaderThread st g second).freePool : Multiset Nat) =
      (st.freePool : Multiset Nat) ∧
    (zeroSourceReaderThread st g second).nReadersRunning = m ∧
    (m = 0 → (zeroSourceReaderThread st g second).allReadsQueued = true) ∧
    (∀ cap, chunk cap ([] : List Nat) = []) := by
  have hfree : ((rest ++ [b] : List Nat) : Multiset Nat) =
      (st.freePool : Multiset Nat) := by
    rw [hpool, coe_append_split, Multiset.coe_singleton, coe_cons_split]
    abel
  have h1 : mDoStep st .acquire =
      { st with freePool := rest, checkedOut := b :: st.checkedOut } := by
    simp only [mDoStep, hpool]
  have h2 : mDoStep { st with freePool := rest, checkedOut := b :: st.checkedOut }
      (.release b) =
      { st with freePool := rest ++ [b], checkedOut := st.checkedOut } := by
    simp only [mDoStep]
    rw [if_pos (List.mem_cons_self b st.checkedOut)]
    rw [List.erase_cons_head]
  have hthread : zeroSourceReaderThread st g second =
      mDoStep (mDoStep ({ st with freePool := rest ++ [b], checkedOut := st.checkedOut } : MState) (.sourceFinished g second)) .readerDone := by
    unfold zeroSourceReaderThread
    rw [hpool]
    show mDoStep (mDoStep (mDoStep (mDoStep st .acquire) (.release b)) (.sourceFinished g second)) .readerDone = _
    rw [h1, h2]
  rcases mDoStep_sourceFinished_eq ({ st with freePool := rest ++ [b], checkedOut := st.checkedOut } : MState) g second with heq | ⟨grp, hg, heq⟩
  · rw [heq] at hthread
    have h4 : mDoStep ({ st with freePool := rest ++ [b], checkedOut := st.checkedOut } : MState) .readerDone =
        { st with freePool := rest ++ [b], checkedOut := st.checkedOut, nReadersRunning := m, allReadsQueued := st.allReadsQueued || m == 0 } := by
      simp only [mDoStep, hn]
    rw [h4] at hthread
    rw [hthread]
    refine ⟨rfl, rfl, rfl, rfl, hfree, rfl, ?_, fun cap => rfl⟩
    intro hm
    subst hm
    simp
  · rw [heq] at hthread
    replace hg : nth st.groups g = some grp := hg
    have h4 : mDoStep ({ st with freePool := rest ++ [b], checkedOut := st.checkedOut, groups := st.groups.set g (setFinished grp second) } : MState) .readerDone =
        { st with freePool := rest ++ [b], checkedOut := st.checkedOut, groups := st.groups.set g (setFinished grp second), nReadersRunning := m, allReadsQueued := st.allReadsQueued || m == 0 } := by
      simp only [mDoStep, hn]
    rw [h4] at hthread
    rw [hthread]
    have hset := slotsAllM_set st.groups g grp (setFinished grp second) hg
    rw [setFinished_slot0, setFinished_slot1] at hset
    have hS := add_right_cancel hset
    refine ⟨rfl, hS, rfl, rfl, hfree, rfl, ?_, fun cap => rfl⟩
    intro hm
    subst hm
    simp

/-- Witness for C8: pool [5, 6], one group, one other reader still
running — the zero-record thread leaves dispatcher and slots alone and
returns buffer 5. -/
theorem C8_zero_record_source_witness :
    (zeroSourceReaderThread (mInit [5, 6] [Shape.twoSources] 1) 0 true).dispatcher =
      (mInit [5, 6] [Shape.twoSources] 1).dispatcher ∧
    (zeroSourceReaderThread (mInit [5, 6] [Shape.twoSources] 1) 0 true).freePool =
      [6, 5] ∧
    (zeroSourceReaderThread (mInit [5, 6] [Shape.twoSources] 1) 0
      true).nReadersRunning = 1 := by
  have h := C8_zero_record_source (mInit [5, 6] [Shape.twoSources] 1) 0 true
    5 [6] 1 (by decide) (by decide)
  exact ⟨h.1, h.2.2.2.1, h.2.2.2.2.2.1⟩

/-! ## C7: matched-stream mismatch detection -/

/-- Result of a paired `getElements` attempt on a two-sources group. -/
inductive PairTake where
  | blocked
  | eos
  | mismatch
  | pairElems (b0 b1 : Nat)
deriving DecidableEq

/-- `Modelled from the spec:` `ReadSupplierQueue::getElements` (§4.3, §7,
missing from the sources) as seen on one two-independent-sources group:
both slots non-empty — hand out both heads; one side's slot empty with that
side's source exhausted while the other side has a buffer — the matched
streams cannot pair up, surface `MatchedStreamMismatch`; both empty with
both sides exhausted — end of stream; otherwise wait for producers. -/
def getElementsFor (g : MGroup) : PairTake :=
  match g.shape with
  | .twoSources =>
    match g.slot0, g.slot1 with
    | b0 :: _, b1 :: _ => .pairElems b0 b1
    | [], _ :: _ => if g.finished0 then .mismatch else .blocked
    | _ :: _, [] => if g.finished1 then .mismatch else .blocked
    | [], [] => if g.finished0 && g.finished1 then .eos else .blocked
  | _ => .blocked

/-- C7: in two-independent-sources mode, when one side has exhausted with an
empty slot while the other side still has a buffered element, `getElements`
surfaces `MatchedStreamMismatch`: it does not block (no hang), does not
report end-of-stream (no silent drop of the surplus), and never hands out a
pair (no mismatched pairing); conversely a pair is only ever handed out when
both sides have a buffer. -/
theorem C7_matched_stream_mismatch (g : MGroup) (hshape : g.shape = .twoSources) :
    (g.finished0 = true → g.slot0 = [] → g.slot1 ≠ [] →
      getElementsFor g = .mismatch) ∧
    (g.finished1 = true → g.slot1 = [] → g.slot0 ≠ [] →
      getElementsFor g = .mismatch) ∧
    (∀ b0 b1, getElementsFor g = .pairElems b0 b1 →
      g.slot0 ≠ [] ∧ g.slot1 ≠ []) ∧
    (getElementsFor g = .mismatch →
      getElementsFor g ≠ .blocked ∧ getElementsFor g ≠ .eos ∧
      ∀ b0 b1, getElementsFor g ≠ .pairElems b0 b1) := by
  obtain ⟨sh, s0, s1, f0, f1⟩ := g
  replace hshape : sh = .twoSources := hshape
  subst hshape
  refine ⟨?_, ?_, ?_, ?_⟩
  · intro hf h0 h1
    replace h0 : s0 = [] := h0
    replace hf : f0 = true := hf
    subst h0
    subst hf
    cases s1 with
    | nil => exact absurd rfl h1
    | cons b bs => simp [getElementsFor]
  · intro hf h1 h0
    replace h1 : s1 = [] := h1
    replace hf : f1 = true := hf
    subst h1
    subst hf
    cases s0 with
    | nil => exact absurd rfl h0
    | cons b bs => simp [getElementsFor]
  · intro b0 b1 hp
    cases s0 with
    | nil =>
      exfalso
      cases s1 with
      | nil =>
        simp only [getElementsFor] at hp
        split at hp <;> exact PairTake.noConfusion hp
      | cons x1 xs1 =>
        simp only [getElementsFor] at hp
        split at hp <;> exact PairTake.noConfusion hp
    | cons x0 xs0 =>
      cases s1 with
      | nil =>
        exfalso
        simp only [getElementsFor] at hp
        split at hp <;> exact PairTake.noConfusion hp
      | cons x1 xs1 => exact ⟨by simp, by simp⟩
  · intro hm
    rw [hm]
    exact ⟨by simp, by simp, fun b0 b1 => by simp⟩

/-- Witness for C7: side 0 exhausted and empty, side 1 holding buffer 3 —
the mismatch is surfaced. -/
theorem C7_matched_stream_mismatch_witness :
    getElementsFor ⟨Shape.twoSources, [], [3], true, false⟩ = PairTake.mismatch :=
  (C7_matched_stream_mismatch ⟨Shape.twoSources, [], [3], true, false⟩ rfl).1
    rfl rfl (by decide)

/-! ## C3: end-of-stream idempotence of the supplier handles -/

/-- Result of one `getNextRead` call. -/
inductive ReadResult (R : Type) where
  | blocked
  | eos
  | read (r : R)
deriving DecidableEq

/-- `ReadSupplierFromQueue` state: the `done` flag, and the records of the
current element not yet returned (`currentElement` + `nextReadIndex`
collapsed into the remaining suffix). -/
structure SupplierSt (R : Type) where
  done : Bool
  current : List R
deriving DecidableEq

/-- `Modelled from the spec:` `ReadSupplierFromQueue::getNextRead` (§4.4,
missing from the sources): if `done`, report end-of-stream; else return the
record at the cursor; on an exhausted buffer take the next ready element
or, if none is pending and all records are queued, set `done` and report
end-of-stream permanently; otherwise the call would block.  Returns
(result, supplier state, remaining ready elements). -/
def getNextRead {R : Type} (s : SupplierSt R) (ready : List (List R))
    (allQueued : Bool) : ReadResult R × SupplierSt R × List (List R) :=
  if s.done then (.eos, s, ready)
  else
    match s.current with
    | r :: rest => (.read r, { s with current := rest }, ready)
    | [] =>
      match ready with
      | buf :: bufs =>
        match buf with
        | r :: rest => (.read r, { s with current := rest }, bufs)
        | [] => (.blocked, s, ready)
      | [] =>
        if allQueued then (.eos, { s with done := true }, ready)
        else (.blocked, s, ready)

/-- Result of one `getNextReadPair` call. -/
inductive PairResult (R : Type) where
  | blocked
  | eos
  | pairRec (a b : R)
deriving DecidableEq

/-- `PairedReadSupplierFromQueue` state: the `done` flag and the two current
buffers' remaining records (`currentElement` / `currentSecondElement` with
the shared cursor collapsed; in single-paired-source mode the two lists are
the deinterleaved halves of the one current element). -/
structure PairedSupplierSt (R : Type) where
  done : Bool
  currentA : List R
  currentB : List R
deriving DecidableEq

/-- `Modelled from the spec:` `PairedReadSupplierFromQueue::getNextReadPair`
(§4.5, missing from the sources), for both paired shapes: if `done`, report
end-of-stream; else return the records at the shared cursor; on exhausted
buffers take the next matched element pair or, if none is pending and all
records are queued, set `done` and report end-of-stream permanently. -/
def getNextReadPair {R : Type} (s : PairedSupplierSt R)
    (ready : List (List R × List R)) (allQueued : Bool) :
    PairResult R × PairedSupplierSt R × List (List R × List R) :=
  if s.done then (.eos, s, ready)
  else
    match s.currentA, s.currentB with
    | a :: as, b :: bs =>
      (.pairRec a b, { s with currentA := as, currentB := bs }, ready)
    | _, _ =>
      match ready with
      | (ba, bb) :: rest =>
        match ba, bb with
        | a :: as, b :: bs =>
          (.pairRec a b, { s with currentA := as, currentB := bs }, rest)
        | _, _ => (.blocked, s, ready)
      | [] =>
        if allQueued then (.eos, { s with done := true }, ready)
        else (.blocked, s, ready)

/-- Run a sequence of later calls, each under an arbitrary queue
environment (ready elements, `allReadsQueued` flag), threading the supplier
state. -/
def callsAfter {R : Type} : SupplierSt R → List (List (List R) × Bool) →
    List (ReadResult R)
  | _, [] => []
  | s, (q, aq) :: rest =>
    (getNextRead s q aq).1 :: callsAfter (getNextRead s q aq).2.1 rest

def pairedCallsAfter {R : Type} : PairedSupplierSt R →
    List (List (List R × List R) × Bool) → List (PairResult R)
  | _, [] => []
  | s, (q, aq) :: rest =>
    (getNextReadPair s q aq).1 :: pairedCallsAfter (getNextReadPair s q aq).2.1 rest

theorem getNextRead_done {R : Type} (s : SupplierSt R) (q : List (List R))
    (aq : Bool) (hd : s.done = true) : getNextRead s q aq = (.eos, s, q) := by
  unfold getNextRead
  rw [if_pos hd]

theorem getNextRead_eos_done {R : Type} (s : SupplierSt R) (q : List (List R))
    (aq : Bool) (he : (getNextRead s q aq).1 = ReadResult.eos) :
    ((getNextRead s q aq).2.1).done = true := by
  obtain ⟨sd, sc⟩ := s
  cases sd with
  | true => simp [getNextRead]
  | false =>
    cases sc with
    | cons r rest => exact absurd he (by simp [getNextRead])
    | nil =>
      cases q with
      | cons buf bufs =>
        cases buf with
        | nil => exact absurd he (by simp [getNextRead])
        | cons r rest => exact absurd he (by simp [getNextRead])
      | nil =>
        cases aq with
        | true => simp [getNextRead]
        | false => exact absurd he (by simp [getNextRead])

theorem callsAfter_done {R : Type} :
    ∀ (envs : List (List (List R) × Bool)) (s : SupplierSt R),
      s.done = true → ∀ r ∈ callsAfter s envs, r = ReadResult.eos := by
  intro envs
  induction envs with
  | nil => intro s _ r hr; simp [callsAfter] at hr
  | cons e rest ih =>
    intro s hd r hr
    obtain ⟨q, aq⟩ := e
    rw [callsAfter, getNextRead_done s q aq hd] at hr
    rcases List.mem_cons.mp hr with rfl | hr'
    · rfl
    · exact ih s hd r hr'

theorem getNextReadPair_done {R : Type} (s : PairedSupplierSt R)
    (q : List (List R × List R)) (aq : Bool) (hd : s.done = true) :
    getNextReadPair s q aq = (.eos, s, q) := by
  unfold getNextReadPair
  rw [if_pos hd]

theorem getNextReadPair_eos_done {R : Type} (s : PairedSupplierSt R)
    (q : List (List R × List R)) (aq : Bool)
    (he : (getNextReadPair s q aq).1 = PairResult.eos) :
    ((getNextReadPair s q aq).2.1).done = true := by
  obtain ⟨sd, sA, sB⟩ := s
  cases sd with
  | true => simp [getNextReadPair]
  | false =>
    cases sA with
    | cons a as =>
      cases sB with
      | cons b bs => exact absurd he (by simp [getNextReadPair])
      | nil =>
        cases q with
        | nil =>
          cases aq with
          | true => simp [getNextReadPair]
          | false => exact absurd he (by simp [getNextReadPair])
        | cons p rest =>
          obtain ⟨ba, bb⟩ := p
          cases ba with
          | nil => exact absurd he (by simp [getNextReadPair])
          | cons x xs =>
            cases bb with
            | nil => exact absurd he (by simp [getNextReadPair])
            | cons y ys => exact absurd he (by simp [getNextReadPair])
    | nil =>
      cases q with
      | nil =>
        cases aq with
        | true => simp [getNextReadPair]
        | false => exact absurd he (by simp [getNextReadPair])
      | cons p rest =>
        obtain ⟨ba, bb⟩ := p
        cases sB with
        | nil =>
          cases ba with
          | nil => exact absurd he (by simp [getNextReadPair])
          | cons x xs =>
            cases bb with
            | nil => exact absurd he (by simp [getNextReadPair])
            | cons y ys => exact absurd he (by simp [getNextReadPair])
        | cons b bs =>
          cases ba with
          | nil => exact absurd he (by simp [getNextReadPair])
          | cons x xs =>
            cases bb with
            | nil => exact absurd he (by simp [getNextReadPair])
            | cons y ys => exact absurd he (by simp [getNextReadPair])

theorem pairedCallsAfter_done {R : Type} :
    ∀ (envs : List (List (List R × List R) × Bool)) (s : PairedSupplierSt R),
      s.done = true → ∀ r ∈ pairedCallsAfter s envs, r = PairResult.eos := by
  intro envs
  induction envs with
  | nil => intro s _ r hr; simp [pairedCallsAfter] at hr
  | cons e rest ih =>
    intro s hd r hr
    obtain ⟨q, aq⟩ := e
    rw [pairedCallsAfter, getNextReadPair_done s q aq hd] at hr
    rcases List.mem_cons.mp hr with rfl | hr'
    · rfl
    · exact ih s hd r hr'

/-- C3: end-of-stream idempotence.  For both supplier kinds: as soon as one
call reports end-of-stream, every subsequent call — under arbitrary later
queue contents and flags, including newly arrived data — reports
end-of-stream again; no later call returns a record or blocks. -/
theorem C3_eos_idempotent {R : Type} :
    (∀ (s : SupplierSt R) (q : List (List R)) (aq : Bool),
      (getNextRead s q aq).1 = ReadResult.eos →
      ∀ (envs : List (List (List R) × Bool)) (r : ReadResult R),
        r ∈ callsAfter (getNextRead s q aq).2.1 envs → r = ReadResult.eos) ∧
    (∀ (s : PairedSupplierSt R) (q : List (List R × List R)) (aq : Bool),
      (getNextReadPair s q aq).1 = PairResult.eos →
      ∀ (envs : List (List (List R × List R) × Bool)) (r : PairResult R),
        r ∈ pairedCallsAfter (getNextReadPair s q aq).2.1 envs →
          r = PairResult.eos) := by
  constructor
  · intro s q aq he envs r hr
    exact callsAfter_done envs _ (getNextRead_eos_done s q aq he) r hr
  · intro s q aq he envs r hr
    exact pairedCallsAfter_done envs _ (getNextReadPair_eos_done s q aq he) r hr

/-- Witness for C3: a supplier that hits end-of-stream on an empty queue
with `allReadsQueued` set keeps reporting end-of-stream on both later calls,
even though new data shows up in the queue in between. -/
theorem C3_eos_idempotent_witness :
    (callsAfter ((getNextRead (⟨false, []⟩ : SupplierSt Nat) [] true).2.1)
        [([[1, 2]], false), ([], true)]).headD ReadResult.blocked =
      ReadResult.eos ∧
    (pairedCallsAfter
        ((getNextReadPair (⟨false, [], []⟩ : PairedSupplierSt Nat) [] true).2.1)
        [([([3], [4])], false)]).headD PairResult.blocked = PairResult.eos :=
  ⟨C3_eos_idempotent.1 ⟨false, []⟩ [] true (by decide)
      [([[1, 2]], false), ([], true)] _ (by decide),
    C3_eos_idempotent.2 ⟨false, [], []⟩ [] true (by decide)
      [([([3], [4])], false)] _ (by decide)⟩

end Snap
